import Mathlib

/-! Migration executor (package `migration`, file `migration/executor.go`)

A shallow embedding of `Executor.Setup`, `Executor.Create`, `Executor.Run`,
`Executor.RunAll`, `Executor.Revert`, `Executor.RevertAll` and `Executor.Migrations`, followed
by theorems about them.

Conventions of the embedding

* The collaborators of the executor (`ItemProvider`, `ItemRunner`, `FileGenerator`) are Go
  interfaces.  They become records of functions over an explicit world state `σ` (the database
  with its ledger, the file system).
* Every call the executor makes on a collaborator or on a hook is appended to a trace of
  `Call`s, so that "is invoked on", "is never invoked on" and "in this order" are statements
  about a list.
* Go's `int` is taken to be 64 bits wide; `step = step - 1` wraps around.
* `time.Parse(format, ·)`, `t.Format(format)` and the package variable `min` are supplied by a
  `TimeEnv`; the theorems hold for every `TimeEnv`.  `goTime` is a concrete one that is used to
  evaluate the executor on concrete inputs.
* `time.Now()` is an argument `now` of `Setup` and `Create`.  Its value carries the location
  `time.Local`; `goTimeIn loc` is the `TimeEnv` that formats in a local zone `loc`.
-/

namespace Migration

/-! ## Data model -/

/-- Go `error` values that are not nil; a nil error is `none : Option Error`. -/
abbrev Error := String

deriving instance DecidableEq for Except

/-- An instant as `time.Time` holds it: whole seconds since January 1 of year 1, 00:00:00 UTC,
and the nanoseconds within that second.  Location and monotonic reading are left out: the
executor only calls `IsZero` on a `CreatedAt` and compares a parsed time with `min`, both of
which are built in UTC without a monotonic reading. -/
structure Time where
  sec : Int
  nsec : Nat
deriving DecidableEq, Repr

/-- Go: `func (t Time) IsZero() bool  return t.sec() == 0 && t.nsec() == 0`. -/
def Time.IsZero (t : Time) : Bool := t.sec == 0 && t.nsec == 0

/-- Modelled from the spec: the struct `Item` (declared in a file of the package that is not
among the sources).  Section 3 of the specification: `Id` string, `Description` label,
`CreatedAt` timestamp whose zero value means "not yet applied". -/
structure Item where
  Id : String
  Description : String
  CreatedAt : Time
deriving DecidableEq, Repr

/-- Modelled from the spec: the struct `Content` (declared outside the sources), the pair of
command bodies of a migration. -/
structure Content where
  UpCommand : String
  DownCommand : String
deriving DecidableEq, Repr

/-- One call made by the executor on a hook or on a collaborator, with the item it passes.
For a hook the item is the copy handed to it (before the hook changes it); for the runner it is
the item after the hook has changed it. -/
inductive Call where
  | OnRunFn (item : Item)
  | RunnerRun (item : Item)
  | OnRevertFn (item : Item)
  | RunnerRevert (item : Item)
  | GeneratorWrite (item : Item) (content : Content)
  | GeneratorCreate (item : Item)
deriving DecidableEq, Repr

/-- Interface `ItemProvider`: `Migrations() ([]Item, error)`, reading the world state. -/
structure ItemProvider (σ : Type) where
  Migrations : σ → Except Error (List Item)

/-- Interface `ItemRunner`: `Run(*Item) error` and `Revert(*Item) error`, each returning its
error (nil is `none`) and the world state it leaves behind.  The methods of the collaborators
are taken to read the item they are pointed at, not to write to it. -/
structure ItemRunner (σ : Type) where
  Run : Item → σ → Option Error × σ
  Revert : Item → σ → Option Error × σ

/-- Interface `FileGenerator`: `Write(*Item, *Content) error` and
`Create(*Item) (string, error)`. -/
structure FileGenerator (σ : Type) where
  Write : Item → Content → σ → Option Error × σ
  Create : Item → σ → Except Error String × σ

/-- Type `ItemFn`, a `func(*Item)`: what the hook does to the item it is pointed at. -/
abbrev ItemFn := Item → Item

/-- The struct `Executor`; a nil hook is `none`. -/
structure Executor (σ : Type) where
  Provider : ItemProvider σ
  Runner : ItemRunner σ
  Generator : FileGenerator σ
  OnRunFn : Option ItemFn
  OnRevertFn : Option ItemFn

/-- The layout of identifiers, `format = "20060102150405"`. -/
def format : String := "20060102150405"

/-- What the executor uses of package `time` and of the package variables: `Parse value` is
`time.Parse(format, value)`, `Format t` is `t.Format(format)`, and `min` is the package
variable `min` (declared outside the sources), the instant of the bootstrap migration.
A Go `Time` is formatted in the location it carries, `time.UTC` for `min` and `time.Local`
for what `time.Now()` returns; a `Time` here carries none, so `Format` stands for the
rendering in the location of the value it is applied to. -/
structure TimeEnv where
  Parse : String → Except Error Time
  Format : Time → String
  min : Time

/-! ## Machine integers -/

/-- The value of a 64-bit two's complement `int` holding the mathematical integer `x`. -/
def wrapInt (x : Int) : Int := (x + 9223372036854775808) % 18446744073709551616 - 9223372036854775808

/-- Go: `step = step - 1` on an `int`. -/
def decStep (step : Int) : Int := wrapInt (step - 1)

/-! ## The loops of `Run` and `Revert` -/

/-- The variables of a loop on entry to an iteration: the remaining `step`, the world state and
the calls made so far. -/
structure Conf (σ : Type) where
  step : Int
  state : σ
  trace : List Call
deriving DecidableEq, Repr

/-- What a call of the executor leaves behind: the returned error, the world state and the
calls it made, in order. -/
structure Outcome (σ : Type) where
  err : Option Error
  state : σ
  trace : List Call
deriving DecidableEq, Repr

/-- How one iteration of a loop ends: it goes on to the next item, or the function returns. -/
inductive Flow (σ : Type) where
  | next (c : Conf σ)
  | ret (out : Outcome σ)

/-- Go: `op := migration; if fn != nil  fn(&op) `: the value of `op` afterwards. -/
def hookItem (fn : Option ItemFn) (migration : Item) : Item :=
  match fn with
  | some f => f migration
  | none => migration

/-- The body of the `for ... range migrations` loop of `Executor.Run`. -/
def runBody {σ : Type} (T : TimeEnv) (E : Executor σ) (migration : Item) (c : Conf σ) : Flow σ :=
  if c.step = 0 then
    Flow.ret ⟨none, c.state, c.trace⟩
  else
    match T.Parse migration.Id with
    | Except.error err => Flow.ret ⟨some err, c.state, c.trace⟩
    | Except.ok timestamp =>
      if (!migration.CreatedAt.IsZero) || timestamp == T.min then
        Flow.next c
      else
        let op := hookItem E.OnRunFn migration
        let hooked := match E.OnRunFn with
          | some _ => c.trace ++ [Call.OnRunFn migration]
          | none => c.trace
        match E.Runner.Run op c.state with
        | (some err, s) => Flow.ret ⟨some err, s, hooked ++ [Call.RunnerRun op]⟩
        | (none, s) => Flow.next ⟨decStep c.step, s, hooked ++ [Call.RunnerRun op]⟩

/-- The body of the `for i := len(migrations) - 1; i >= 0; i--` loop of `Executor.Revert`. -/
def revertBody {σ : Type} (T : TimeEnv) (E : Executor σ) (migration : Item) (c : Conf σ) : Flow σ :=
  if c.step = 0 then
    Flow.ret ⟨none, c.state, c.trace⟩
  else if migration.CreatedAt.IsZero then
    Flow.next c
  else
    match T.Parse migration.Id with
    | Except.error err => Flow.ret ⟨some err, c.state, c.trace⟩
    | Except.ok timestamp =>
      if timestamp == T.min then
        Flow.ret ⟨none, c.state, c.trace⟩
      else
        let op := hookItem E.OnRevertFn migration
        let hooked := match E.OnRevertFn with
          | some _ => c.trace ++ [Call.OnRevertFn migration]
          | none => c.trace
        match E.Runner.Revert op c.state with
        | (some err, s) => Flow.ret ⟨some err, s, hooked ++ [Call.RunnerRevert op]⟩
        | (none, s) => Flow.next ⟨decStep c.step, s, hooked ++ [Call.RunnerRevert op]⟩

/-- A `for` loop over the items still to visit with the given body, ending in the `return nil`
that follows the loop. -/
def walk {σ : Type} (body : Item → Conf σ → Flow σ) : List Item → Conf σ → Outcome σ
  | [], c => ⟨none, c.state, c.trace⟩
  | migration :: rest, c =>
    match body migration c with
    | Flow.next c' => walk body rest c'
    | Flow.ret out => out

/-- Go: `func (m *Executor) Migrations() ([]Item, error)`. -/
def Executor.Migrations {σ : Type} (E : Executor σ) (s : σ) : Except Error (List Item) :=
  E.Provider.Migrations s

/-- Go: `func (m *Executor) Run(step int) error`. -/
def Executor.Run {σ : Type} (E : Executor σ) (T : TimeEnv) (step : Int) (s : σ) : Outcome σ :=
  match E.Migrations s with
  | Except.error err => ⟨some err, s, []⟩
  | Except.ok migrations => walk (runBody T E) migrations ⟨step, s, []⟩

/-- Go: `func (m *Executor) RunAll() error`. -/
def Executor.RunAll {σ : Type} (E : Executor σ) (T : TimeEnv) (s : σ) : Outcome σ :=
  E.Run T (-1) s

/-- Go: `func (m *Executor) Revert(step int) error`.  The index loop from `len(migrations) - 1`
down to `0` visits the items of the reversed list. -/
def Executor.Revert {σ : Type} (E : Executor σ) (T : TimeEnv) (step : Int) (s : σ) : Outcome σ :=
  match E.Migrations s with
  | Except.error err => ⟨some err, s, []⟩
  | Except.ok migrations => walk (revertBody T E) migrations.reverse ⟨step, s, []⟩

/-- Go: `func (m *Executor) RevertAll() error`. -/
def Executor.RevertAll {σ : Type} (E : Executor σ) (T : TimeEnv) (s : σ) : Outcome σ :=
  E.Revert T (-1) s

/-- The up and down commands that `Setup` builds: the five lines written with `fmt.Fprintln`
and the text of the `down` buffer. -/
def setupContent : Content where
  UpCommand := "CREATE TABLE migrations (\n id          TEXT      NOT NULL PRIMARY KEY,\n description TEXT      NOT NULL,\n created_at  TIMESTAMP NOT NULL\n);\n"
  DownCommand := "DROP TABLE IF EXISTS migrations;"

/-- Go: `func (m *Executor) Setup() error`; `now` is what `time.Now()` returns. -/
def Executor.Setup {σ : Type} (E : Executor σ) (T : TimeEnv) (now : Time) (s : σ) : Outcome σ :=
  let migration : Item := ⟨T.Format T.min, "setup", now⟩
  let content := setupContent
  match E.Generator.Write migration content s with
  | (some err, s1) => ⟨some err, s1, [Call.GeneratorWrite migration content]⟩
  | (none, s1) =>
    match E.Runner.Run migration s1 with
    | (err, s2) => ⟨err, s2, [Call.GeneratorWrite migration content, Call.RunnerRun migration]⟩

/-- What a call of `Executor.Create` leaves behind: the returned `(string, error)`, the world
state and the calls it made. -/
structure Created (σ : Type) where
  result : Except Error String
  state : σ
  trace : List Call
deriving DecidableEq, Repr

/-- Go: `func (m *Executor) Create(name string) (string, error)`; `now` is what `time.Now()`
returns. -/
def Executor.Create {σ : Type} (E : Executor σ) (T : TimeEnv) (now : Time) (name : String)
    (s : σ) : Created σ :=
  let timestamp := now
  let migration : Item := ⟨T.Format timestamp, name, timestamp⟩
  match E.Generator.Create migration s with
  | (result, s1) => ⟨result, s1, [Call.GeneratorCreate migration]⟩

/-! ## Vocabulary of the statements -/

/-- The configuration in which a loop enters the iteration that follows the given items, when
none of their iterations returns. -/
def reach {σ : Type} (body : Item → Conf σ → Flow σ) : List Item → Conf σ → Option (Conf σ)
  | [], c => some c
  | migration :: rest, c =>
    match body migration c with
    | Flow.next c' => reach body rest c'
    | Flow.ret _ => none

/-- A value the type `int` can hold. -/
def InRange (step : Int) : Prop := -9223372036854775808 ≤ step ∧ step < 9223372036854775808

/-- The number of decrements after which an `int` counter is zero: `step` itself when it is not
negative, and `2^64 + step` when it is. -/
def budget (step : Int) : Nat := (step % 18446744073709551616).toNat

/-- The calls `Executor.Run` makes for an item it executes: the hook when it is set, then the
runner on what the hook left. -/
def runEvents {σ : Type} (E : Executor σ) (migration : Item) : List Call :=
  (match E.OnRunFn with
    | some _ => [Call.OnRunFn migration]
    | none => []) ++ [Call.RunnerRun (hookItem E.OnRunFn migration)]

/-- The calls `Executor.Revert` makes for an item it reverts. -/
def revertEvents {σ : Type} (E : Executor σ) (migration : Item) : List Call :=
  (match E.OnRevertFn with
    | some _ => [Call.OnRevertFn migration]
    | none => []) ++ [Call.RunnerRevert (hookItem E.OnRevertFn migration)]

/-- The items `Runner.Run` was called with, in order. -/
def runnerRunArgs (trace : List Call) : List Item :=
  trace.filterMap fun call =>
    match call with
    | Call.RunnerRun op => some op
    | _ => none

/-- The items `Runner.Revert` was called with, in order. -/
def runnerRevertArgs (trace : List Call) : List Item :=
  trace.filterMap fun call =>
    match call with
    | Call.RunnerRevert op => some op
    | _ => none

/-- The items `OnRunFn` was called with, in order. -/
def onRunArgs (trace : List Call) : List Item :=
  trace.filterMap fun call =>
    match call with
    | Call.OnRunFn item => some item
    | _ => none

/-- The items `OnRevertFn` was called with, in order. -/
def onRevertArgs (trace : List Call) : List Item :=
  trace.filterMap fun call =>
    match call with
    | Call.OnRevertFn item => some item
    | _ => none

/-- A Pending item that is not the bootstrap item: `CreatedAt` is zero and the `Id` parses to an
instant other than `min`. -/
def isRunnable (T : TimeEnv) (migration : Item) : Bool :=
  match T.Parse migration.Id with
  | Except.ok timestamp => migration.CreatedAt.IsZero && !(timestamp == T.min)
  | Except.error _ => false

/-- An Applied item that is not the bootstrap item: `CreatedAt` is not zero and the `Id` parses
to an instant other than `min`. -/
def isRevertible (T : TimeEnv) (migration : Item) : Bool :=
  match T.Parse migration.Id with
  | Except.ok timestamp => !migration.CreatedAt.IsZero && !(timestamp == T.min)
  | Except.error _ => false

/-- The world state after `Runner.Run` has been called on each of the items in turn, each
changed by the hook first. -/
def runAllState {σ : Type} (E : Executor σ) (items : List Item) (s : σ) : σ :=
  items.foldl (fun st m => (E.Runner.Run (hookItem E.OnRunFn m) st).2) s

/-- The world state after `Runner.Revert` has been called on each of the items in turn. -/
def revertAllState {σ : Type} (E : Executor σ) (items : List Item) (s : σ) : σ :=
  items.foldl (fun st m => (E.Runner.Revert (hookItem E.OnRevertFn m) st).2) s

/-- `Runner.Run` returns nil on each of the items when called on them in turn from `s`. -/
def runSucceeds {σ : Type} (E : Executor σ) : List Item → σ → Prop
  | [], _ => True
  | m :: rest, s =>
    (E.Runner.Run (hookItem E.OnRunFn m) s).1 = none ∧
      runSucceeds E rest (E.Runner.Run (hookItem E.OnRunFn m) s).2

/-! ## The shape shared by the two loop bodies -/

/-- What a loop body decides about an item once the budget test has passed, before any hook or
runner is involved. -/
inductive Verdict where
  | stop (err : Option Error)
  | skip
  | exec

/-- The body decides to execute the item. -/
def Verdict.isExec : Verdict → Bool
  | Verdict.exec => true
  | _ => false

/-- The decision of the body of `Run`. -/
def runVerdict (T : TimeEnv) (migration : Item) : Verdict :=
  match T.Parse migration.Id with
  | Except.error err => Verdict.stop (some err)
  | Except.ok timestamp =>
    if (!migration.CreatedAt.IsZero) || timestamp == T.min then Verdict.skip else Verdict.exec

/-- The decision of the body of `Revert`. -/
def revertVerdict (T : TimeEnv) (migration : Item) : Verdict :=
  if migration.CreatedAt.IsZero then Verdict.skip
  else
    match T.Parse migration.Id with
    | Except.error err => Verdict.stop (some err)
    | Except.ok timestamp => if timestamp == T.min then Verdict.stop none else Verdict.exec

/-- One direction of the executor: its decision, its hook, its runner method and the names of
the two calls in the trace. -/
structure Op (σ : Type) where
  verdict : Item → Verdict
  fn : Option ItemFn
  act : Item → σ → Option Error × σ
  hookCall : Item → Call
  actCall : Item → Call

/-- The calls made for an executed item. -/
def Op.events {σ : Type} (o : Op σ) (migration : Item) : List Call :=
  (match o.fn with
    | some _ => [o.hookCall migration]
    | none => []) ++ [o.actCall (hookItem o.fn migration)]

/-- The loop body in terms of the decision. -/
def Op.body {σ : Type} (o : Op σ) (migration : Item) (c : Conf σ) : Flow σ :=
  if c.step = 0 then Flow.ret ⟨none, c.state, c.trace⟩
  else
    match o.verdict migration with
    | Verdict.stop err => Flow.ret ⟨err, c.state, c.trace⟩
    | Verdict.skip => Flow.next c
    | Verdict.exec =>
      match o.act (hookItem o.fn migration) c.state with
      | (some err, s) => Flow.ret ⟨some err, s, c.trace ++ o.events migration⟩
      | (none, s) => Flow.next ⟨decStep c.step, s, c.trace ++ o.events migration⟩

/-- The items of a list that the body decides to execute. -/
def Op.execItems {σ : Type} (o : Op σ) (items : List Item) : List Item :=
  items.filter fun m => (o.verdict m).isExec

/-- The world state after the runner method has been called on each of the items in turn. -/
def Op.allState {σ : Type} (o : Op σ) (items : List Item) (s : σ) : σ :=
  items.foldl (fun st m => (o.act (hookItem o.fn m) st).2) s

/-- The runner method returns nil on each of the items when called on them in turn. -/
def Op.succeeds {σ : Type} (o : Op σ) : List Item → σ → Prop
  | [], _ => True
  | m :: rest, s =>
    (o.act (hookItem o.fn m) s).1 = none ∧ o.succeeds rest (o.act (hookItem o.fn m) s).2

/-- The direction of `Run`. -/
def runOp {σ : Type} (T : TimeEnv) (E : Executor σ) : Op σ :=
  ⟨runVerdict T, E.OnRunFn, E.Runner.Run, Call.OnRunFn, Call.RunnerRun⟩

/-- The direction of `Revert`. -/
def revertOp {σ : Type} (T : TimeEnv) (E : Executor σ) : Op σ :=
  ⟨revertVerdict T, E.OnRevertFn, E.Runner.Revert, Call.OnRevertFn, Call.RunnerRevert⟩

/-! ## A concrete `TimeEnv`

A model of `time.Parse` and `Time.Format` of Go's standard library for the one layout
`"20060102150405"`, in UTC.  It serves to evaluate the executor on concrete identifiers. -/

/-- An ASCII decimal digit. -/
def isDigit (c : Char) : Bool := decide ('0' ≤ c) && decide (c ≤ '9')

/-- The number written by the `n` leading characters of `value` and the rest of `value`;
`none` unless these are `n` decimal digits. -/
def getnum (n : Nat) (value : List Char) : Option (Nat × List Char) :=
  let ds := value.take n
  if ds.length = n ∧ ds.all isDigit = true then
    some (ds.foldl (fun v c => 10 * v + (c.toNat - 48)) 0, value.drop n)
  else none

/-- Go: `isLeap(year)`, the Gregorian leap year rule. -/
def isLeap (year : Int) : Bool := year % 4 == 0 && (year % 100 != 0 || year % 400 == 0)

/-- Go: `daysIn(m, year)`, the number of days of a month. -/
def daysIn (month : Nat) (year : Int) : Nat :=
  if month = 2 then (if isLeap year then 29 else 28)
  else if month = 4 ∨ month = 6 ∨ month = 9 ∨ month = 11 then 30 else 31

/-- The number of days from January 1 of year 1 to the given day of the proleptic Gregorian
calendar (negative before it). -/
def daysSinceYearOne (year : Int) (month day : Nat) : Int :=
  let y : Int := if month ≤ 2 then year - 1 else year
  let era : Int := y / 400
  let yoe : Int := y - era * 400
  let mp : Int := ((month + 9) % 12 : Nat)
  let doy : Int := (153 * mp + 2) / 5 + day - 1
  let doe : Int := yoe * 365 + yoe / 4 - yoe / 100 + doy
  era * 146097 + doe - 306

/-- The year, month and day of the day that lies `days` days after January 1 of year 1. -/
def civil (days : Int) : Int × Nat × Nat :=
  let z : Int := days + 306
  let era : Int := z / 146097
  let doe : Int := z - era * 146097
  let yoe : Int := (doe - doe / 1460 + doe / 36524 - doe / 146096) / 365
  let doy : Int := doe - (365 * yoe + yoe / 4 - yoe / 100)
  let mp : Int := (5 * doy + 2) / 153
  let day : Int := doy - (153 * mp + 2) / 5 + 1
  let month : Int := if mp < 10 then mp + 3 else mp - 9
  let year : Int := yoe + era * 400 + (if month ≤ 2 then 1 else 0)
  (year, month.toNat, day.toNat)

/-- A fractional second in the value that the layout does not ask for: a period or comma
followed by digits, of which at most nine count.  Gives the nanoseconds and the rest of the
value; without such a fraction, zero and the value. -/
def parseFraction (value : List Char) : Nat × List Char :=
  match value with
  | sep :: d :: rest =>
    if (sep == '.' || sep == ',') && isDigit d then
      let ds := d :: rest.takeWhile isDigit
      let used := ds.take 9
      ((used.foldl (fun v c => 10 * v + (c.toNat - 48)) 0) * 10 ^ (9 - used.length),
        rest.dropWhile isDigit)
    else (0, value)
  | _ => (0, value)

/-- A model of `time.Parse("20060102150405", value)`: four digits of year, two each of month,
day, hour, minute and second, each checked against its range, an optional fractional second
and nothing after it; the instant is in UTC.  The error strings stand for the `*ParseError`
values of the library. -/
def goParse (value : String) : Except Error Time :=
  match getnum 4 value.data with
  | none => Except.error "parsing time: cannot parse year"
  | some (year, v1) =>
  match getnum 2 v1 with
  | none => Except.error "parsing time: cannot parse month"
  | some (month, v2) =>
  if month = 0 ∨ 12 < month then Except.error "parsing time: month out of range" else
  match getnum 2 v2 with
  | none => Except.error "parsing time: cannot parse day"
  | some (day, v3) =>
  match getnum 2 v3 with
  | none => Except.error "parsing time: cannot parse hour"
  | some (hour, v4) =>
  if 24 ≤ hour then Except.error "parsing time: hour out of range" else
  match getnum 2 v4 with
  | none => Except.error "parsing time: cannot parse minute"
  | some (minute, v5) =>
  if 60 ≤ minute then Except.error "parsing time: minute out of range" else
  match getnum 2 v5 with
  | none => Except.error "parsing time: cannot parse second"
  | some (second, v6) =>
  if 60 ≤ second then Except.error "parsing time: second out of range" else
  match parseFraction v6 with
  | (nsec, v7) =>
  if v7 ≠ [] then Except.error "parsing time: extra text" else
  if day < 1 ∨ daysIn month year < day then Except.error "parsing time: day out of range" else
  Except.ok ⟨daysSinceYearOne year month day * 86400 + hour * 3600 + minute * 60 + second, nsec⟩

/-- Two decimal digits. -/
def pad2 (n : Nat) : List Char := [Char.ofNat (48 + n / 10 % 10), Char.ofNat (48 + n % 10)]

/-- The decimal digits of a number, most significant first; none for zero. -/
def wideDigits (n : Nat) : List Char :=
  (Nat.digits 10 n).reverse.map fun d => Char.ofNat (48 + d)

/-- The digits of the absolute value of a year as `Format` writes them for `2006`: padded with
zeros to four digits, and all of the digits when there are more. -/
def yearDigits (n : Nat) : List Char :=
  if n < 10000 then pad2 (n / 100) ++ pad2 (n % 100) else wideDigits n

/-- The year as `Format` writes it for `2006`: at least four digits, with a sign when
negative. -/
def padYear (year : Int) : List Char :=
  (if year < 0 then ['-'] else []) ++ yearDigits year.natAbs

/-- A model of `t.Format("20060102150405")` for an instant in UTC. -/
def goFormat (t : Time) : String :=
  let days := t.sec / 86400
  let rem := (t.sec % 86400).toNat
  match civil days with
  | (year, month, day) =>
    String.mk (padYear year ++ pad2 month ++ pad2 day ++ pad2 (rem / 3600) ++
      pad2 (rem / 60 % 60) ++ pad2 (rem % 60))

/-- A `TimeEnv` with the model of Go's `time` package.  The declaration of `min` is outside the
sources; the instant taken here, `time.Date(1, time.January, 1970, 0, 0, 0, 0, time.UTC)`,
is May 24 of year 6 and stands for any instant that `Format` and `Parse` carry to itself. -/
def goTime : TimeEnv := ⟨goParse, goFormat, ⟨170121600, 0⟩⟩

/-- A `time.Location` as `Format` uses it: the offset, in seconds east of UTC, that is in
effect at an instant, given in seconds since January 1 of year 1, 00:00:00 UTC. -/
abbrev Location := Int → Int

/-- A model of `t.Format("20060102150405")` for a `Time` that carries the location `loc`: Go
formats the fields of the instant moved by the offset in effect at it (`t.locabs()`). -/
def goFormatIn (loc : Location) (t : Time) : String := goFormat ⟨t.sec + loc t.sec, t.nsec⟩

/-- The `TimeEnv` of a process whose `time.Local` is `loc`, for the values that `time.Now()`
returns: `Format` renders them in `loc`. -/
def goTimeIn (loc : Location) : TimeEnv := ⟨goParse, goFormatIn loc, goTime.min⟩

/-- Central European time around the end of summer time in 2024: two hours east of UTC before
2024-10-27 01:00:00 UTC and one hour east of it from then on. -/
def berlinAutumn : Location := fun sec => if sec < 63865587600 then 7200 else 3600

/-! ## A ledger-backed provider and runner -/

/-- Modelled from the spec: the ledger (section 6), the rows `(id, created_at)` of the
migrations table; the description column plays no part. -/
abbrev Ledger := List (String × Time)

/-- An Id has a row in the ledger. -/
def recorded (ledger : Ledger) (id : String) : Prop := id ∈ ledger.map Prod.fst

instance (ledger : Ledger) (id : String) : Decidable (recorded ledger id) :=
  inferInstanceAs (Decidable (id ∈ ledger.map Prod.fst))

/-- Modelled from the spec: an `ItemProvider` (sections 3 and 4.2; the provider of the
repository is outside the sources).  It lists the given scripts in their order, each with the
`CreatedAt` of its ledger row, or with the zero time when it has none. -/
def ledgerProvider (scripts : List Item) : ItemProvider Ledger where
  Migrations := fun ledger =>
    Except.ok (scripts.map fun m =>
      match ledger.lookup m.Id with
      | some t => ⟨m.Id, m.Description, t⟩
      | none => ⟨m.Id, m.Description, ⟨0, 0⟩⟩)

/-- Modelled from the spec: an `ItemRunner` (section 4.3; the runner of the repository is
outside the sources).  `Run` fails with `"script failed"` on the Ids listed in `failing` and
otherwise adds a row for the Id at the instant `now`; `Revert` removes the rows of the Id. -/
def ledgerRunner (now : Time) (failing : List String) : ItemRunner Ledger where
  Run := fun op ledger =>
    if op.Id ∈ failing then (some "script failed", ledger) else (none, ledger ++ [(op.Id, now)])
  Revert := fun op ledger =>
    if op.Id ∈ failing then (some "script failed", ledger)
    else (none, ledger.filter fun row => row.1 != op.Id)

/-- Three scripts with the identifiers of the scenario of section 8, none applied. -/
def scenarioScripts : List Item :=
  [⟨"20240101000000", "create users", ⟨0, 0⟩⟩,
   ⟨"20240102000000", "create orders", ⟨0, 0⟩⟩,
   ⟨"20240103000000", "add index", ⟨0, 0⟩⟩]

/-- The instant at which the runner of the scenarios records its rows, 2024-01-04 12:00:00. -/
def scenarioNow : Time := ⟨63839966400, 0⟩

/-- A hook that overwrites the Id of the item it is handed with `"00060524000000"`, which is
`min.Format(format)` in `goTime`. -/
def sentinelHook : ItemFn := fun item => ⟨"00060524000000", item.Description, item.CreatedAt⟩

/-- A list with every kind of item: the bootstrap item, an Applied script, a Pending script and
two items whose Ids do not parse, one Applied and one Pending. -/
def mixedScripts : List Item :=
  [⟨"00060524000000", "setup", ⟨0, 0⟩⟩,
   ⟨"20240101000000", "create users", ⟨0, 0⟩⟩,
   ⟨"2024-01-02", "malformed, applied", ⟨0, 0⟩⟩,
   ⟨"20240103000000", "add index", ⟨0, 0⟩⟩,
   ⟨"not a timestamp", "malformed, pending", ⟨0, 0⟩⟩]

/-- A ledger with rows for the bootstrap item, the first script and the first malformed item
of `mixedScripts`. -/
def mixedLedger : Ledger :=
  [("00060524000000", scenarioNow), ("20240101000000", scenarioNow), ("2024-01-02", scenarioNow)]

/-- A hook that replaces the Description of the item it is handed by `"patched"`. -/
def describeHook : ItemFn := fun item => ⟨item.Id, "patched", item.CreatedAt⟩

/-- The bootstrap item followed by the three scripts of the scenario. -/
def bootstrapScripts : List Item :=
  ⟨"00060524000000", "setup", ⟨0, 0⟩⟩ :: scenarioScripts

/-- A ledger with rows for the bootstrap item and the first script of the scenario. -/
def bootstrapLedger : Ledger :=
  [("00060524000000", scenarioNow), ("20240101000000", scenarioNow)]

/-- The items `Generator.Create` was called with, in order. -/
def generatorCreateArgs (trace : List Call) : List Item :=
  trace.filterMap fun call =>
    match call with
    | Call.GeneratorCreate item => some item
    | _ => none

/-- `Runner.Revert` returns nil on each of the items when called on them in turn from `s`. -/
def revertSucceeds {σ : Type} (E : Executor σ) : List Item → σ → Prop
  | [], _ => True
  | m :: rest, s =>
    (E.Runner.Revert (hookItem E.OnRevertFn m) s).1 = none ∧
      revertSucceeds E rest (E.Runner.Revert (hookItem E.OnRevertFn m) s).2

/-- An `ItemProvider` whose `Migrations` fails with the given error. -/
def failingProvider (σ : Type) (err : Error) : ItemProvider σ where
  Migrations := fun _ => Except.error err

/-- A `FileGenerator` whose methods fail with the given error and write nothing. -/
def failingGenerator (σ : Type) (err : Error) : FileGenerator σ where
  Write := fun _ _ s => (some err, s)
  Create := fun _ s => (Except.error err, s)

/-- A ledger with rows for the three scripts of the scenario. -/
def appliedLedger : Ledger :=
  [("20240101000000", scenarioNow), ("20240102000000", scenarioNow),
   ("20240103000000", scenarioNow)]

/-- The three scripts of the scenario as the provider lists them over `appliedLedger`. -/
def appliedScripts : List Item :=
  [⟨"20240101000000", "create users", scenarioNow⟩,
   ⟨"20240102000000", "create orders", scenarioNow⟩,
   ⟨"20240103000000", "add index", scenarioNow⟩]

/-- An Applied script followed by two Pending ones, the first of them with an Id that does not
parse. -/
def draftScripts : List Item :=
  [⟨"20240101000000", "create users", ⟨0, 0⟩⟩,
   ⟨"not a timestamp", "draft", ⟨0, 0⟩⟩,
   ⟨"20240103000000", "add index", ⟨0, 0⟩⟩]

/-- A `FileGenerator` that writes nothing. -/
def nullGenerator (σ : Type) : FileGenerator σ where
  Write := fun _ _ s => (none, s)
  Create := fun item s => (Except.ok item.Id, s)

/-- An executor over the ledger-backed provider and runner. -/
def ledgerExecutor (scripts : List Item) (now : Time) (failing : List String)
    (onRun onRevert : Option ItemFn) : Executor Ledger :=
  ⟨ledgerProvider scripts, ledgerRunner now failing, nullGenerator Ledger, onRun, onRevert⟩


/-! ## Counters -/

theorem inRange_decStep (step : Int) : InRange (decStep step) := by
  unfold InRange decStep wrapInt
  omega

theorem budget_eq_zero_iff {step : Int} (h : InRange step) : budget step = 0 ↔ step = 0 := by
  unfold InRange at h
  unfold budget
  omega

theorem budget_decStep {step : Int} (h : InRange step) (h0 : step ≠ 0) :
    budget (decStep step) + 1 = budget step := by
  unfold InRange at h
  unfold budget decStep wrapInt
  omega

theorem budget_natCast (k : Nat) (h : (k : Int) < 9223372036854775808) : budget (k : Int) = k := by
  unfold budget
  omega

theorem budget_neg {step : Int} (h : InRange step) (hneg : step < 0) :
    9223372036854775808 ≤ budget step := by
  unfold InRange at h
  unfold budget
  omega

/-! ## Loops -/

theorem walk_append {σ : Type} (body : Item → Conf σ → Flow σ) (pre post : List Item)
    (c : Conf σ) :
    walk body (pre ++ post) c =
      match reach body pre c with
      | some c' => walk body post c'
      | none => walk body pre c := by
  induction pre generalizing c with
  | nil => simp [reach]
  | cons m rest ih =>
    simp only [List.cons_append, walk, reach]
    cases body m c with
    | next c' => simpa using ih c'
    | ret out => simp

theorem runBody_eq_body {σ : Type} (T : TimeEnv) (E : Executor σ) :
    runBody T E = (runOp T E).body := by
  funext m c
  unfold runBody Op.body runOp runVerdict Op.events
  by_cases h0 : c.step = 0
  · simp [h0]
  · simp only [h0, if_false]
    cases T.Parse m.Id with
    | error err => simp
    | ok ts =>
      by_cases hs : ((!m.CreatedAt.IsZero) || ts == T.min) = true
      · simp [hs]
      · simp only [hs, if_false]
        cases hfn : E.OnRunFn <;> simp

theorem revertBody_eq_body {σ : Type} (T : TimeEnv) (E : Executor σ) :
    revertBody T E = (revertOp T E).body := by
  funext m c
  unfold revertBody Op.body revertOp revertVerdict Op.events
  by_cases h0 : c.step = 0
  · simp [h0]
  · simp only [h0, if_false]
    by_cases hz : m.CreatedAt.IsZero = true
    · simp [hz]
    · simp only [hz, if_false]
      cases T.Parse m.Id with
      | error err => simp
      | ok ts =>
        by_cases hs : (ts == T.min) = true
        · simp [hs]
        · simp only [hs, if_false]
          cases hfn : E.OnRevertFn <;> simp

/-! ## One iteration of the shared body -/

theorem Op.body_zero {σ : Type} (o : Op σ) (m : Item) (c : Conf σ) (h0 : c.step = 0) :
    o.body m c = Flow.ret ⟨none, c.state, c.trace⟩ := by
  simp [Op.body, h0]

theorem Op.body_stop {σ : Type} (o : Op σ) (m : Item) (c : Conf σ) (err : Option Error)
    (h0 : c.step ≠ 0) (hv : o.verdict m = Verdict.stop err) :
    o.body m c = Flow.ret ⟨err, c.state, c.trace⟩ := by
  simp [Op.body, h0, hv]

theorem Op.body_skip {σ : Type} (o : Op σ) (m : Item) (c : Conf σ)
    (h0 : c.step ≠ 0) (hv : o.verdict m = Verdict.skip) :
    o.body m c = Flow.next c := by
  simp [Op.body, h0, hv]

theorem Op.body_exec_ok {σ : Type} (o : Op σ) (m : Item) (c : Conf σ)
    (h0 : c.step ≠ 0) (hv : o.verdict m = Verdict.exec)
    (ha : (o.act (hookItem o.fn m) c.state).1 = none) :
    o.body m c =
      Flow.next ⟨decStep c.step, (o.act (hookItem o.fn m) c.state).2, c.trace ++ o.events m⟩ := by
  simp only [Op.body, h0, hv, if_false]
  cases hr : o.act (hookItem o.fn m) c.state with
  | mk e s' =>
    rw [hr] at ha
    simp only at ha
    subst ha
    rfl

theorem Op.body_exec_err {σ : Type} (o : Op σ) (m : Item) (c : Conf σ) (e : Error)
    (h0 : c.step ≠ 0) (hv : o.verdict m = Verdict.exec)
    (ha : (o.act (hookItem o.fn m) c.state).1 = some e) :
    o.body m c =
      Flow.ret ⟨some e, (o.act (hookItem o.fn m) c.state).2, c.trace ++ o.events m⟩ := by
  simp only [Op.body, h0, hv, if_false]
  cases hr : o.act (hookItem o.fn m) c.state with
  | mk e' s' =>
    rw [hr] at ha
    simp only at ha
    subst ha
    rfl

/-! ## The shape of every trace -/

/-- Whatever the items, the budget and the runner: the calls of a loop are the calls for a
sublist of the visited items, all of them items the body decides to execute, no more of them
than the budget allows. -/
theorem Op.walk_shape {σ : Type} (o : Op σ) (ms : List Item) (c : Conf σ) :
    ∃ ran : List Item, ran.Sublist ms ∧ (∀ m ∈ ran, o.verdict m = Verdict.exec) ∧
      (walk o.body ms c).trace = c.trace ++ ran.flatMap o.events ∧
      (walk o.body ms c).state = o.allState ran c.state ∧
      (InRange c.step → ran.length ≤ budget c.step) := by
  induction ms generalizing c with
  | nil => exact ⟨[], List.Sublist.refl _, by simp, by simp [walk], by simp [walk, Op.allState], by simp⟩
  | cons m rest ih =>
    by_cases h0 : c.step = 0
    · refine ⟨[], by simp, by simp, ?_, ?_, by simp⟩
      · simp [walk, o.body_zero m c h0]
      · simp [walk, o.body_zero m c h0, Op.allState]
    · cases hv : o.verdict m with
      | stop err =>
        refine ⟨[], by simp, by simp, ?_, ?_, by simp⟩
        · simp [walk, o.body_stop m c err h0 hv]
        · simp [walk, o.body_stop m c err h0 hv, Op.allState]
      | skip =>
        obtain ⟨ran, hsub, hex, htr, hst, hlen⟩ := ih c
        refine ⟨ran, hsub.cons m, hex, ?_, ?_, hlen⟩
        · simpa [walk, o.body_skip m c h0 hv] using htr
        · simpa [walk, o.body_skip m c h0 hv] using hst
      | exec =>
        cases ha : (o.act (hookItem o.fn m) c.state).1 with
        | some e =>
          refine ⟨[m], by simp, by simpa using hv, ?_, ?_, ?_⟩
          · simp [walk, o.body_exec_err m c e h0 hv ha]
          · simp [walk, o.body_exec_err m c e h0 hv ha, Op.allState]
          · intro hr
            have := (budget_eq_zero_iff hr).not.mpr h0
            simp only [List.length_singleton]
            omega
        | none =>
          obtain ⟨ran, hsub, hex, htr, hst, hlen⟩ :=
            ih ⟨decStep c.step, (o.act (hookItem o.fn m) c.state).2, c.trace ++ o.events m⟩
          refine ⟨m :: ran, hsub.cons₂ m, ?_, ?_, ?_, ?_⟩
          · intro x hx
            rcases List.mem_cons.mp hx with rfl | hx
            · exact hv
            · exact hex x hx
          · simpa [walk, o.body_exec_ok m c h0 hv ha, List.append_assoc] using htr
          · simpa [walk, o.body_exec_ok m c h0 hv ha, Op.allState] using hst
          · intro hr
            have h1 := hlen (inRange_decStep c.step)
            have h2 := budget_decStep hr h0
            simp only [List.length_cons]
            simp only at h1
            omega

/-! ## Loops whose runner calls all succeed -/

theorem Op.walk_skip {σ : Type} (o : Op σ) (ms : List Item) (c : Conf σ)
    (hv : ∀ m ∈ ms, o.verdict m = Verdict.skip) :
    walk o.body ms c = ⟨none, c.state, c.trace⟩ := by
  induction ms with
  | nil => rfl
  | cons m rest ih =>
    by_cases h0 : c.step = 0
    · simp [walk, o.body_zero m c h0]
    · have hm := hv m (List.mem_cons_self m rest)
      simp only [walk, o.body_skip m c h0 hm]
      exact ih fun x hx => hv x (List.mem_cons_of_mem m hx)

/-- With no item on which the body stops and a runner that succeeds on the items it is given,
the loop executes the first `budget step` executable items and returns nil. -/
theorem Op.walk_all_ok {σ : Type} (o : Op σ) (ms : List Item) (c : Conf σ)
    (hv : ∀ m ∈ ms, ∀ err, o.verdict m ≠ Verdict.stop err)
    (hs : o.succeeds ((o.execItems ms).take (budget c.step)) c.state)
    (hr : InRange c.step) :
    walk o.body ms c =
      ⟨none, o.allState ((o.execItems ms).take (budget c.step)) c.state,
        c.trace ++ ((o.execItems ms).take (budget c.step)).flatMap o.events⟩ := by
  induction ms generalizing c with
  | nil => simp [walk, Op.execItems, Op.allState]
  | cons m rest ih =>
    have hrest : ∀ x ∈ rest, ∀ err, o.verdict x ≠ Verdict.stop err :=
      fun x hx => hv x (List.mem_cons_of_mem m hx)
    by_cases h0 : c.step = 0
    · have hb : budget c.step = 0 := (budget_eq_zero_iff hr).mpr h0
      simp [walk, o.body_zero m c h0, hb, Op.allState]
    · have hb : budget c.step ≠ 0 := (budget_eq_zero_iff hr).not.mpr h0
      cases hvm : o.verdict m with
      | stop err => exact absurd hvm (hv m (List.mem_cons_self m rest) err)
      | skip =>
        have hf : o.execItems (m :: rest) = o.execItems rest := by
          simp [Op.execItems, List.filter_cons, hvm, Verdict.isExec]
        rw [hf] at hs ⊢
        simp only [walk, o.body_skip m c h0 hvm]
        exact ih c hrest hs hr
      | exec =>
        have hf : o.execItems (m :: rest) = m :: o.execItems rest := by
          simp [Op.execItems, List.filter_cons, hvm, Verdict.isExec]
        obtain ⟨b, hb'⟩ := Nat.exists_eq_succ_of_ne_zero hb
        have hdec : budget (decStep c.step) = b := by
          have := budget_decStep hr h0
          omega
        rw [hf, hb', Nat.succ_eq_add_one, List.take_succ_cons] at hs ⊢
        obtain ⟨ha, hs'⟩ := hs
        simp only [walk, o.body_exec_ok m c h0 hvm ha]
        have := ih ⟨decStep c.step, (o.act (hookItem o.fn m) c.state).2, c.trace ++ o.events m⟩
          hrest (by simpa [hdec] using hs') (inRange_decStep c.step)
        rw [this]
        simp [hdec, Op.allState, List.append_assoc]

theorem Op.succeeds_of_always {σ : Type} (o : Op σ) (hact : ∀ op s, (o.act op s).1 = none)
    (items : List Item) (s : σ) : o.succeeds items s := by
  induction items generalizing s with
  | nil => trivial
  | cons m rest ih => exact ⟨hact _ _, ih _⟩

/-- The loop reaches the end of a run of executable items on which the runner succeeds, when
the budget covers them. -/
theorem Op.reach_exec {σ : Type} (o : Op σ) (pre : List Item) (c : Conf σ)
    (hv : ∀ m ∈ pre, o.verdict m = Verdict.exec) (hs : o.succeeds pre c.state)
    (hr : InRange c.step) (hb : pre.length ≤ budget c.step) :
    ∃ c', reach o.body pre c = some c' ∧ c'.state = o.allState pre c.state ∧
      c'.trace = c.trace ++ pre.flatMap o.events ∧ InRange c'.step ∧
      budget c'.step + pre.length = budget c.step := by
  induction pre generalizing c with
  | nil => exact ⟨c, rfl, by simp [Op.allState], by simp, hr, by simp⟩
  | cons m rest ih =>
    have hb0 : budget c.step ≠ 0 := by
      simp only [List.length_cons] at hb
      omega
    have h0 : c.step ≠ 0 := fun h => hb0 ((budget_eq_zero_iff hr).mpr h)
    have hvm := hv m (List.mem_cons_self m rest)
    obtain ⟨ha, hs'⟩ := hs
    have hdec := budget_decStep hr h0
    obtain ⟨c', hreach, hst, htr, hr', hbud⟩ :=
      ih ⟨decStep c.step, (o.act (hookItem o.fn m) c.state).2, c.trace ++ o.events m⟩
        (fun x hx => hv x (List.mem_cons_of_mem m hx)) hs' (inRange_decStep c.step)
        (by simp only [List.length_cons] at hb; simp only; omega)
    refine ⟨c', ?_, ?_, ?_, hr', ?_⟩
    · simpa [reach, o.body_exec_ok m c h0 hvm ha] using hreach
    · simpa [Op.allState] using hst
    · simpa [List.append_assoc] using htr
    · simp only [List.length_cons]
      simp only at hbud
      omega

theorem walk_of_reach {σ : Type} (body : Item → Conf σ → Flow σ) (ms : List Item)
    (c c' : Conf σ) (h : reach body ms c = some c') :
    walk body ms c = ⟨none, c'.state, c'.trace⟩ := by
  induction ms generalizing c with
  | nil =>
    simp only [reach, Option.some.injEq] at h
    subst h
    rfl
  | cons m rest ih =>
    simp only [reach] at h
    simp only [walk]
    cases hb : body m c with
    | next c1 =>
      rw [hb] at h
      exact ih c1 h
    | ret out =>
      rw [hb] at h
      exact absurd h (by simp)

/-- The runner fails on an executable item that follows a run of executable items on which it
succeeds: the loop returns that error after the calls for these items and no others. -/
theorem Op.walk_fail {σ : Type} (o : Op σ) (pre : List Item) (m : Item) (post : List Item)
    (c : Conf σ) (e : Error)
    (hv : ∀ x ∈ pre ++ [m], o.verdict x = Verdict.exec) (hs : o.succeeds pre c.state)
    (hf : (o.act (hookItem o.fn m) (o.allState pre c.state)).1 = some e)
    (hr : InRange c.step) (hb : pre.length < budget c.step) :
    walk o.body (pre ++ m :: post) c =
      ⟨some e, (o.act (hookItem o.fn m) (o.allState pre c.state)).2,
        c.trace ++ (pre ++ [m]).flatMap o.events⟩ := by
  obtain ⟨c', hreach, hst, htr, hr', hbud⟩ :=
    o.reach_exec pre c (fun x hx => hv x (List.mem_append_left _ hx)) hs hr (Nat.le_of_lt hb)
  have h0 : c'.step ≠ 0 := by
    intro h
    have := (budget_eq_zero_iff hr').mpr h
    omega
  have hvm : o.verdict m = Verdict.exec := hv m (by simp)
  rw [walk_append, hreach]
  simp only [walk]
  rw [← hst] at hf
  rw [o.body_exec_err m c' e h0 hvm hf]
  simp [hst, htr, List.append_assoc]

/-! ## From the shared shape back to `Run` and `Revert` -/

theorem run_eq_walk {σ : Type} (T : TimeEnv) (E : Executor σ) (step : Int) (s : σ)
    (ms : List Item) (hprov : E.Provider.Migrations s = Except.ok ms) :
    E.Run T step s = walk (runOp T E).body ms ⟨step, s, []⟩ := by
  simp [Executor.Run, Executor.Migrations, hprov, runBody_eq_body]

theorem revert_eq_walk {σ : Type} (T : TimeEnv) (E : Executor σ) (step : Int) (s : σ)
    (ms : List Item) (hprov : E.Provider.Migrations s = Except.ok ms) :
    E.Revert T step s = walk (revertOp T E).body ms.reverse ⟨step, s, []⟩ := by
  simp [Executor.Revert, Executor.Migrations, hprov, revertBody_eq_body]

theorem runOp_isExec {σ : Type} (T : TimeEnv) (E : Executor σ) (m : Item) :
    ((runOp T E).verdict m).isExec = isRunnable T m := by
  simp only [runOp, runVerdict, isRunnable]
  cases T.Parse m.Id with
  | error err => rfl
  | ok ts =>
    by_cases hm : ts = T.min <;> cases hz : m.CreatedAt.IsZero <;> simp [Verdict.isExec, hm]

theorem revertOp_isExec {σ : Type} (T : TimeEnv) (E : Executor σ) (m : Item) :
    ((revertOp T E).verdict m).isExec = isRevertible T m := by
  simp only [revertOp, revertVerdict, isRevertible]
  cases hz : m.CreatedAt.IsZero
  · cases T.Parse m.Id with
    | error err => rfl
    | ok ts => by_cases hm : ts = T.min <;> simp [Verdict.isExec, hm]
  · cases T.Parse m.Id <;> simp [Verdict.isExec]

theorem Verdict.isExec_iff (v : Verdict) : v.isExec = true ↔ v = Verdict.exec := by
  cases v <;> simp [Verdict.isExec]

theorem runOp_execItems {σ : Type} (T : TimeEnv) (E : Executor σ) (ms : List Item) :
    (runOp T E).execItems ms = ms.filter (isRunnable T) := by
  simp only [Op.execItems, runOp_isExec]

theorem revertOp_execItems {σ : Type} (T : TimeEnv) (E : Executor σ) (ms : List Item) :
    (revertOp T E).execItems ms = ms.filter (isRevertible T) := by
  simp only [Op.execItems, revertOp_isExec]

theorem runOp_events {σ : Type} (T : TimeEnv) (E : Executor σ) :
    (runOp T E).events = runEvents E := rfl

theorem revertOp_events {σ : Type} (T : TimeEnv) (E : Executor σ) :
    (revertOp T E).events = revertEvents E := rfl

theorem runOp_allState {σ : Type} (T : TimeEnv) (E : Executor σ) :
    (runOp T E).allState = runAllState E := rfl

theorem revertOp_allState {σ : Type} (T : TimeEnv) (E : Executor σ) :
    (revertOp T E).allState = revertAllState E := rfl

theorem runOp_succeeds {σ : Type} (T : TimeEnv) (E : Executor σ) (items : List Item) (s : σ) :
    (runOp T E).succeeds items s ↔ runSucceeds E items s := by
  induction items generalizing s with
  | nil => simp [Op.succeeds, runSucceeds]
  | cons m rest ih => simp only [Op.succeeds, runSucceeds, ih]; rfl

theorem runnerRunArgs_runEvents {σ : Type} (E : Executor σ) (items : List Item) :
    runnerRunArgs (items.flatMap (runEvents E)) = items.map (hookItem E.OnRunFn) := by
  induction items with
  | nil => rfl
  | cons m rest ih =>
    simp only [runnerRunArgs] at ih
    cases hfn : E.OnRunFn <;>
      simp [runnerRunArgs, runEvents, hfn, List.filterMap_append, ih]

theorem runnerRevertArgs_revertEvents {σ : Type} (E : Executor σ) (items : List Item) :
    runnerRevertArgs (items.flatMap (revertEvents E)) = items.map (hookItem E.OnRevertFn) := by
  induction items with
  | nil => rfl
  | cons m rest ih =>
    simp only [runnerRevertArgs] at ih
    cases hfn : E.OnRevertFn <;>
      simp [runnerRevertArgs, revertEvents, hfn, List.filterMap_append, ih]

theorem runVerdict_ne_stop_of_parse (T : TimeEnv) (m : Item) (t : Time)
    (h : T.Parse m.Id = Except.ok t) (err : Option Error) :
    runVerdict T m ≠ Verdict.stop err := by
  simp only [runVerdict, h]
  split <;> simp

theorem runVerdict_exec_iff (T : TimeEnv) (m : Item) :
    runVerdict T m = Verdict.exec ↔ isRunnable T m = true := by
  have h := runOp_isExec T (⟨⟨fun _ => Except.ok []⟩, ⟨fun _ s => (none, s), fun _ s => (none, s)⟩,
    ⟨fun _ _ s => (none, s), fun _ s => (Except.ok "", s)⟩, none, none⟩ : Executor Unit) m
  rw [← h, Verdict.isExec_iff]
  rfl

theorem revertVerdict_exec_iff (T : TimeEnv) (m : Item) :
    revertVerdict T m = Verdict.exec ↔ isRevertible T m = true := by
  have h := revertOp_isExec T (⟨⟨fun _ => Except.ok []⟩, ⟨fun _ s => (none, s), fun _ s => (none, s)⟩,
    ⟨fun _ _ s => (none, s), fun _ s => (Except.ok "", s)⟩, none, none⟩ : Executor Unit) m
  rw [← h, Verdict.isExec_iff]
  rfl

theorem revertOp_succeeds {σ : Type} (T : TimeEnv) (E : Executor σ) (items : List Item) (s : σ)
    (hact : ∀ op st, (E.Runner.Revert op st).1 = none) :
    (revertOp T E).succeeds items s :=
  (revertOp T E).succeeds_of_always hact items s

theorem runnerRevertArgs_runEvents {σ : Type} (E : Executor σ) (items : List Item) :
    runnerRevertArgs (items.flatMap (runEvents E)) = [] := by
  induction items with
  | nil => rfl
  | cons m rest ih =>
    simp only [runnerRevertArgs] at ih
    cases hfn : E.OnRunFn <;>
      simp [runnerRevertArgs, runEvents, hfn, List.filterMap_append, ih]

theorem onRunArgs_runEvents_subset {σ : Type} (E : Executor σ) (items : List Item) :
    ∀ x ∈ onRunArgs (items.flatMap (runEvents E)), x ∈ items := by
  induction items with
  | nil => intro x hx; simp [onRunArgs] at hx
  | cons m rest ih =>
    intro x hx
    simp only [onRunArgs] at ih
    cases hfn : E.OnRunFn with
    | none =>
      simp only [onRunArgs, runEvents, hfn, List.flatMap_cons, List.filterMap_append,
        List.nil_append, List.filterMap_cons, List.filterMap_nil] at hx
      exact List.mem_cons_of_mem m (ih x hx)
    | some f =>
      simp only [onRunArgs, runEvents, hfn, List.flatMap_cons, List.filterMap_append,
        List.filterMap_cons, List.filterMap_nil, List.singleton_append, List.nil_append,
        List.mem_cons] at hx
      rcases hx with rfl | hx
      · exact List.mem_cons_self _ _
      · exact List.mem_cons_of_mem m (ih x hx)

theorem onRevertArgs_revertEvents_subset {σ : Type} (E : Executor σ) (items : List Item) :
    ∀ x ∈ onRevertArgs (items.flatMap (revertEvents E)), x ∈ items := by
  induction items with
  | nil => intro x hx; simp [onRevertArgs] at hx
  | cons m rest ih =>
    intro x hx
    simp only [onRevertArgs] at ih
    cases hfn : E.OnRevertFn with
    | none =>
      simp only [onRevertArgs, revertEvents, hfn, List.flatMap_cons, List.filterMap_append,
        List.nil_append, List.filterMap_cons, List.filterMap_nil] at hx
      exact List.mem_cons_of_mem m (ih x hx)
    | some f =>
      simp only [onRevertArgs, revertEvents, hfn, List.flatMap_cons, List.filterMap_append,
        List.filterMap_cons, List.filterMap_nil, List.singleton_append, List.nil_append,
        List.mem_cons] at hx
      rcases hx with rfl | hx
      · exact List.mem_cons_self _ _
      · exact List.mem_cons_of_mem m (ih x hx)

/-- The calls of `Run` are the calls for a sublist of the Provider's list, all of them Pending
non-sentinel items with a parsable Id; no more of them than the budget allows. -/
theorem run_trace_shape {σ : Type} (T : TimeEnv) (E : Executor σ) (step : Int) (s : σ) :
    ∃ ran : List Item, (∀ m ∈ ran, isRunnable T m = true) ∧
      (E.Run T step s).trace = ran.flatMap (runEvents E) ∧
      (∀ ms, E.Provider.Migrations s = Except.ok ms → ran.Sublist ms) ∧
      (InRange step → ran.length ≤ budget step) := by
  cases hprov : E.Provider.Migrations s with
  | error err =>
    exact ⟨[], by simp, by simp [Executor.Run, Executor.Migrations, hprov], by simp, by simp⟩
  | ok ms =>
    obtain ⟨ran, hsub, hex, htr, _, hlen⟩ := (runOp T E).walk_shape ms ⟨step, s, []⟩
    refine ⟨ran, fun m hm => (runVerdict_exec_iff T m).mp (hex m hm), ?_, ?_, hlen⟩
    · rw [run_eq_walk T E step s ms hprov, htr]
      rfl
    · intro ms' h
      cases h
      exact hsub

/-- The calls of `Revert` are the calls for a sublist of the Provider's list taken last item
first, all of them Applied non-sentinel items with a parsable Id; no more of them than the
budget allows. -/
theorem revert_trace_shape {σ : Type} (T : TimeEnv) (E : Executor σ) (step : Int) (s : σ) :
    ∃ ran : List Item, (∀ m ∈ ran, isRevertible T m = true) ∧
      (E.Revert T step s).trace = ran.flatMap (revertEvents E) ∧
      (∀ ms, E.Provider.Migrations s = Except.ok ms → ran.Sublist ms.reverse) ∧
      (InRange step → ran.length ≤ budget step) := by
  cases hprov : E.Provider.Migrations s with
  | error err =>
    exact ⟨[], by simp, by simp [Executor.Revert, Executor.Migrations, hprov], by simp, by simp⟩
  | ok ms =>
    obtain ⟨ran, hsub, hex, htr, _, hlen⟩ := (revertOp T E).walk_shape ms.reverse ⟨step, s, []⟩
    refine ⟨ran, fun m hm => (revertVerdict_exec_iff T m).mp (hex m hm), ?_, ?_, hlen⟩
    · rw [revert_eq_walk T E step s ms hprov, htr]
      rfl
    · intro ms' h
      cases h
      exact hsub

theorem isRunnable_id_ne_sentinel (T : TimeEnv) (m : Item)
    (hround : T.Parse (T.Format T.min) = Except.ok T.min) (h : isRunnable T m = true) :
    m.Id ≠ T.Format T.min := by
  intro hid
  simp [isRunnable, hid, hround] at h

theorem isRevertible_id_ne_sentinel (T : TimeEnv) (m : Item)
    (hround : T.Parse (T.Format T.min) = Except.ok T.min) (h : isRevertible T m = true) :
    m.Id ≠ T.Format T.min := by
  intro hid
  simp [isRevertible, hid, hround] at h

theorem budget_gt_of_step {step : Int} {n : Nat} (hr : InRange step)
    (hn : (n : Int) < 9223372036854775808) (hb : step < 0 ∨ (n : Int) < step) :
    n < budget step := by
  unfold InRange at hr
  unfold budget
  omega

/-- A ledger reading `R` that a successful runner call extends by the Id of the item: when
the loop returns nil without the budget running out, every Id recorded before is recorded
after, the body stopped on no item, and every item it decided to execute is recorded. -/
theorem Op.walk_records {σ : Type} (o : Op σ) (R : σ → String → Prop)
    (hrec : ∀ m st, (o.act (hookItem o.fn m) st).1 = none →
      R (o.act (hookItem o.fn m) st).2 m.Id ∧
      ∀ id, R st id → R (o.act (hookItem o.fn m) st).2 id)
    (ms : List Item) (c : Conf σ)
    (hns : ∀ m ∈ ms, o.verdict m ≠ Verdict.stop none)
    (hr : InRange c.step) (hb : ms.length < budget c.step)
    (herr : (walk o.body ms c).err = none) :
    (∀ id, R c.state id → R (walk o.body ms c).state id) ∧
    ∀ m ∈ ms, (∀ e, o.verdict m ≠ Verdict.stop (some e)) ∧
      (o.verdict m = Verdict.exec → R (walk o.body ms c).state m.Id) := by
  induction ms generalizing c with
  | nil => exact ⟨fun id h => h, by simp⟩
  | cons m rest ih =>
    have hb0 : budget c.step ≠ 0 := by
      simp only [List.length_cons] at hb
      omega
    have h0 : c.step ≠ 0 := fun h => hb0 ((budget_eq_zero_iff hr).mpr h)
    have hns' : ∀ x ∈ rest, o.verdict x ≠ Verdict.stop none :=
      fun x hx => hns x (List.mem_cons_of_mem m hx)
    cases hvm : o.verdict m with
    | stop err =>
      cases err with
      | none => exact absurd hvm (hns m (List.mem_cons_self m rest))
      | some e =>
        simp [walk, o.body_stop m c (some e) h0 hvm] at herr
    | skip =>
      simp only [walk, o.body_skip m c h0 hvm] at herr ⊢
      obtain ⟨hmono, hall⟩ := ih c hns' hr
        (by simp only [List.length_cons] at hb; omega) herr
      refine ⟨hmono, ?_⟩
      intro x hx
      rcases List.mem_cons.mp hx with rfl | hx
      · exact ⟨by simp [hvm], by simp [hvm]⟩
      · exact hall x hx
    | exec =>
      cases ha : (o.act (hookItem o.fn m) c.state).1 with
      | some e =>
        simp [walk, o.body_exec_err m c e h0 hvm ha] at herr
      | none =>
        simp only [walk, o.body_exec_ok m c h0 hvm ha] at herr ⊢
        have hdec := budget_decStep hr h0
        obtain ⟨hmono, hall⟩ :=
          ih ⟨decStep c.step, (o.act (hookItem o.fn m) c.state).2, c.trace ++ o.events m⟩
            hns' (inRange_decStep c.step)
            (by simp only [List.length_cons] at hb; simp only; omega) herr
        obtain ⟨hnew, hkeep⟩ := hrec m c.state ha
        refine ⟨fun id h => hmono id (hkeep id h), ?_⟩
        intro x hx
        rcases List.mem_cons.mp hx with rfl | hx
        · exact ⟨by simp [hvm], fun _ => hmono _ hnew⟩
        · exact hall x hx

theorem runVerdict_ne_stop_none (T : TimeEnv) (m : Item) :
    runVerdict T m ≠ Verdict.stop none := by
  unfold runVerdict
  cases T.Parse m.Id with
  | error err => simp
  | ok ts =>
    by_cases h : ((!m.CreatedAt.IsZero) || ts == T.min) = true
    · simp only [h, if_true]
      exact fun h' => Verdict.noConfusion h'
    · simp only [h, if_false]
      exact fun h' => Verdict.noConfusion h'

theorem runVerdict_skip_of_applied (T : TimeEnv) (m : Item) (t : Time)
    (hp : T.Parse m.Id = Except.ok t) (h : m.CreatedAt.IsZero = false ∨ t = T.min) :
    runVerdict T m = Verdict.skip := by
  unfold runVerdict
  rw [hp]
  rcases h with h | h <;> simp [h]

theorem runVerdict_cases_of_parse (T : TimeEnv) (m : Item) (t : Time)
    (hp : T.Parse m.Id = Except.ok t) :
    (m.CreatedAt.IsZero = false ∨ t = T.min) ∨ runVerdict T m = Verdict.exec := by
  by_cases hz : m.CreatedAt.IsZero = false
  · exact Or.inl (Or.inl hz)
  · by_cases ht : t = T.min
    · exact Or.inl (Or.inr ht)
    · right
      unfold runVerdict
      rw [hp]
      simp [hz, ht]

theorem runVerdict_parse_of_ne_stop (T : TimeEnv) (m : Item)
    (h : ∀ e, runVerdict T m ≠ Verdict.stop (some e)) : ∃ t, T.Parse m.Id = Except.ok t := by
  cases hp : T.Parse m.Id with
  | error err => exact absurd (by simp [runVerdict, hp]) (h err)
  | ok t => exact ⟨t, rfl⟩

/-- A ledger reading `R` from which a successful runner call removes the Id of the item: after
the calls on a list of items none of their Ids is recorded, and nothing becomes recorded. -/
theorem Op.allState_clears {σ : Type} (o : Op σ) (R : σ → String → Prop)
    (hdel : ∀ m st, (o.act (hookItem o.fn m) st).1 = none →
      ¬ R (o.act (hookItem o.fn m) st).2 m.Id ∧
      ∀ id, ¬ R st id → ¬ R (o.act (hookItem o.fn m) st).2 id)
    (items : List Item) (s : σ) (hs : o.succeeds items s) :
    (∀ id, ¬ R s id → ¬ R (o.allState items s) id) ∧
    ∀ m ∈ items, ¬ R (o.allState items s) m.Id := by
  induction items generalizing s with
  | nil => exact ⟨fun id h => by simpa [Op.allState] using h, by simp⟩
  | cons m rest ih =>
    obtain ⟨ha, hs'⟩ := hs
    obtain ⟨hgone, hkeep⟩ := hdel m s ha
    obtain ⟨hmono, hall⟩ := ih (o.act (hookItem o.fn m) s).2 hs'
    have hstep : o.allState (m :: rest) s = o.allState rest (o.act (hookItem o.fn m) s).2 := by
      simp [Op.allState]
    rw [hstep]
    refine ⟨fun id h => hmono id (hkeep id h), ?_⟩
    intro x hx
    rcases List.mem_cons.mp hx with rfl | hx
    · exact hmono _ hgone
    · exact hall x hx

/-- With no item on which the body stops, a runner that always succeeds and a budget larger
than the number of items, no iteration returns and the counter is not zero at the end. -/
theorem Op.reach_unbounded {σ : Type} (o : Op σ) (ms : List Item) (c : Conf σ)
    (hv : ∀ m ∈ ms, ∀ err, o.verdict m ≠ Verdict.stop err)
    (hact : ∀ op st, (o.act op st).1 = none)
    (hr : InRange c.step) (hb : ms.length < budget c.step) :
    ∃ c', reach o.body ms c = some c' ∧ c'.step ≠ 0 := by
  induction ms generalizing c with
  | nil =>
    refine ⟨c, rfl, fun h => ?_⟩
    have := (budget_eq_zero_iff hr).mpr h
    omega
  | cons m rest ih =>
    have hb0 : budget c.step ≠ 0 := by
      simp only [List.length_cons] at hb
      omega
    have h0 : c.step ≠ 0 := fun h => hb0 ((budget_eq_zero_iff hr).mpr h)
    have hrest : ∀ x ∈ rest, ∀ err, o.verdict x ≠ Verdict.stop err :=
      fun x hx => hv x (List.mem_cons_of_mem m hx)
    cases hvm : o.verdict m with
    | stop err => exact absurd hvm (hv m (List.mem_cons_self m rest) err)
    | skip =>
      obtain ⟨c', hc', hne⟩ := ih c hrest hr (by simp only [List.length_cons] at hb; omega)
      exact ⟨c', by simpa [reach, o.body_skip m c h0 hvm] using hc', hne⟩
    | exec =>
      have hdec := budget_decStep hr h0
      obtain ⟨c', hc', hne⟩ :=
        ih ⟨decStep c.step, (o.act (hookItem o.fn m) c.state).2, c.trace ++ o.events m⟩
          hrest (inRange_decStep c.step)
          (by simp only [List.length_cons] at hb; simp only; omega)
      exact ⟨c', by simpa [reach, o.body_exec_ok m c h0 hvm (hact _ _)] using hc', hne⟩

theorem revertVerdict_ne_stop_of_revertible (T : TimeEnv) (m : Item)
    (h : isRevertible T m = true) (err : Option Error) :
    revertVerdict T m ≠ Verdict.stop err := by
  rw [(revertVerdict_exec_iff T m).mpr h]
  exact fun h' => Verdict.noConfusion h'

theorem Op.walk_zero {σ : Type} (o : Op σ) (ms : List Item) (c : Conf σ) (h0 : c.step = 0) :
    walk o.body ms c = ⟨none, c.state, c.trace⟩ := by
  cases ms with
  | nil => rfl
  | cons m rest => simp [walk, o.body_zero m c h0]

theorem runEvents_of_hook {σ : Type} (E : Executor σ) (f : ItemFn) (hf : E.OnRunFn = some f) :
    runEvents E = fun m => [Call.OnRunFn m, Call.RunnerRun (f m)] := by
  funext m
  simp [runEvents, hf, hookItem]

theorem revertEvents_of_hook {σ : Type} (E : Executor σ) (g : ItemFn)
    (hg : E.OnRevertFn = some g) :
    revertEvents E = fun m => [Call.OnRevertFn m, Call.RunnerRevert (g m)] := by
  funext m
  simp [revertEvents, hg, hookItem]

theorem onRunArgs_of_hook (f : ItemFn) (items : List Item) :
    onRunArgs (items.flatMap fun m => [Call.OnRunFn m, Call.RunnerRun (f m)]) = items := by
  induction items with
  | nil => rfl
  | cons m rest ih =>
    simp only [onRunArgs] at ih
    simp [onRunArgs, List.filterMap_append, ih]

theorem onRevertArgs_of_hook (g : ItemFn) (items : List Item) :
    onRevertArgs (items.flatMap fun m => [Call.OnRevertFn m, Call.RunnerRevert (g m)]) =
      items := by
  induction items with
  | nil => rfl
  | cons m rest ih =>
    simp only [onRevertArgs] at ih
    simp [onRevertArgs, List.filterMap_append, ih]

/-- The items for which a loop makes calls are an initial segment of the items of the list
that the body decides to execute: none of these is passed over before the loop ends. -/
theorem Op.walk_exec_segment {σ : Type} (o : Op σ) (ms : List Item) (c : Conf σ) :
    ∃ ran rest : List Item, o.execItems ms = ran ++ rest ∧
      (walk o.body ms c).trace = c.trace ++ ran.flatMap o.events := by
  induction ms generalizing c with
  | nil => exact ⟨[], [], by simp [Op.execItems], by simp [walk]⟩
  | cons m rest ih =>
    by_cases h0 : c.step = 0
    · exact ⟨[], o.execItems (m :: rest), by simp, by simp [walk, o.body_zero m c h0]⟩
    · cases hv : o.verdict m with
      | stop err =>
        exact ⟨[], o.execItems (m :: rest), by simp, by simp [walk, o.body_stop m c err h0 hv]⟩
      | skip =>
        obtain ⟨ran, tl, hseg, htr⟩ := ih c
        refine ⟨ran, tl, ?_, ?_⟩
        · rw [← hseg]
          simp [Op.execItems, List.filter_cons, hv, Verdict.isExec]
        · simpa [walk, o.body_skip m c h0 hv] using htr
      | exec =>
        have hf : o.execItems (m :: rest) = m :: o.execItems rest := by
          simp [Op.execItems, List.filter_cons, hv, Verdict.isExec]
        cases ha : (o.act (hookItem o.fn m) c.state).1 with
        | some e =>
          exact ⟨[m], o.execItems rest, by simp [hf],
            by simp [walk, o.body_exec_err m c e h0 hv ha]⟩
        | none =>
          obtain ⟨ran, tl, hseg, htr⟩ :=
            ih ⟨decStep c.step, (o.act (hookItem o.fn m) c.state).2, c.trace ++ o.events m⟩
          refine ⟨m :: ran, tl, by simp [hf, hseg], ?_⟩
          simpa [walk, o.body_exec_ok m c h0 hv ha, List.append_assoc] using htr

/-- An error that a loop returns is one on which the body stopped or one that the runner
method returned for an item the body decided to execute. -/
theorem Op.walk_err_source {σ : Type} (o : Op σ) (ms : List Item) (c : Conf σ) (e : Error)
    (herr : (walk o.body ms c).err = some e) :
    (∃ m ∈ ms, o.verdict m = Verdict.stop (some e)) ∨
    (∃ m ∈ ms, o.verdict m = Verdict.exec ∧
      ∃ st, (o.act (hookItem o.fn m) st).1 = some e) := by
  induction ms generalizing c with
  | nil => simp [walk] at herr
  | cons m rest ih =>
    by_cases h0 : c.step = 0
    · simp [walk, o.body_zero m c h0] at herr
    · have lift : ((∃ x ∈ rest, o.verdict x = Verdict.stop (some e)) ∨
          (∃ x ∈ rest, o.verdict x = Verdict.exec ∧
            ∃ st, (o.act (hookItem o.fn x) st).1 = some e)) →
          ((∃ x ∈ m :: rest, o.verdict x = Verdict.stop (some e)) ∨
          (∃ x ∈ m :: rest, o.verdict x = Verdict.exec ∧
            ∃ st, (o.act (hookItem o.fn x) st).1 = some e)) := by
        rintro (⟨x, hx, h⟩ | ⟨x, hx, h⟩)
        · exact Or.inl ⟨x, List.mem_cons_of_mem m hx, h⟩
        · exact Or.inr ⟨x, List.mem_cons_of_mem m hx, h⟩
      cases hv : o.verdict m with
      | stop err =>
        simp only [walk, o.body_stop m c err h0 hv] at herr
        subst herr
        exact Or.inl ⟨m, List.mem_cons_self m rest, hv⟩
      | skip =>
        simp only [walk, o.body_skip m c h0 hv] at herr
        exact lift (ih c herr)
      | exec =>
        cases ha : (o.act (hookItem o.fn m) c.state).1 with
        | some e' =>
          simp only [walk, o.body_exec_err m c e' h0 hv ha, Option.some.injEq] at herr
          subst herr
          exact Or.inr ⟨m, List.mem_cons_self m rest, hv, c.state, ha⟩
        | none =>
          simp only [walk, o.body_exec_ok m c h0 hv ha] at herr
          exact lift (ih _ herr)

/-- When the budget does not reach beyond the executable items of a first part of the list,
on which the body does not stop and the runner succeeds, what follows plays no part. -/
theorem Op.walk_budget_out {σ : Type} (o : Op σ) (pre post : List Item) (c : Conf σ)
    (hv : ∀ m ∈ pre, ∀ err, o.verdict m ≠ Verdict.stop err)
    (hs : o.succeeds ((o.execItems pre).take (budget c.step)) c.state)
    (hr : InRange c.step) (hb : budget c.step ≤ (o.execItems pre).length) :
    walk o.body (pre ++ post) c = walk o.body pre c := by
  induction pre generalizing c with
  | nil =>
    have h0 : c.step = 0 := (budget_eq_zero_iff hr).mp (by simpa [Op.execItems] using hb)
    rw [List.nil_append, o.walk_zero post c h0]
    rfl
  | cons m rest ih =>
    have hrest : ∀ x ∈ rest, ∀ err, o.verdict x ≠ Verdict.stop err :=
      fun x hx => hv x (List.mem_cons_of_mem m hx)
    by_cases h0 : c.step = 0
    · rw [o.walk_zero _ c h0, o.walk_zero _ c h0]
    · have hb0 : budget c.step ≠ 0 := (budget_eq_zero_iff hr).not.mpr h0
      cases hvm : o.verdict m with
      | stop err => exact absurd hvm (hv m (List.mem_cons_self m rest) err)
      | skip =>
        have hf : o.execItems (m :: rest) = o.execItems rest := by
          simp [Op.execItems, List.filter_cons, hvm, Verdict.isExec]
        rw [hf] at hs hb
        simp only [List.cons_append, walk, o.body_skip m c h0 hvm]
        exact ih c hrest hs hr hb
      | exec =>
        have hf : o.execItems (m :: rest) = m :: o.execItems rest := by
          simp [Op.execItems, List.filter_cons, hvm, Verdict.isExec]
        obtain ⟨b, hb'⟩ := Nat.exists_eq_succ_of_ne_zero hb0
        have hdec : budget (decStep c.step) = b := by
          have := budget_decStep hr h0
          omega
        rw [hf, hb', Nat.succ_eq_add_one, List.take_succ_cons] at hs
        rw [hf, hb', List.length_cons] at hb
        obtain ⟨ha, hs'⟩ := hs
        simp only [List.cons_append, walk, o.body_exec_ok m c h0 hvm ha]
        exact ih ⟨decStep c.step, (o.act (hookItem o.fn m) c.state).2, c.trace ++ o.events m⟩
          hrest (by simpa [hdec] using hs') (inRange_decStep c.step)
          (by simp only [hdec]; omega)

theorem Op.succeeds_take {σ : Type} (o : Op σ) (items : List Item) (s : σ) (n : Nat)
    (hs : o.succeeds items s) : o.succeeds (items.take n) s := by
  induction items generalizing s n with
  | nil => simpa using hs
  | cons m rest ih =>
    cases n with
    | zero => trivial
    | succ n => exact ⟨hs.1, ih _ n hs.2⟩

theorem revertOp_succeeds_iff {σ : Type} (T : TimeEnv) (E : Executor σ) (items : List Item)
    (s : σ) : (revertOp T E).succeeds items s ↔ revertSucceeds E items s := by
  induction items generalizing s with
  | nil => simp [Op.succeeds, revertSucceeds]
  | cons m rest ih => simp only [Op.succeeds, revertSucceeds, ih]; rfl

theorem onRunArgs_runEvents_none {σ : Type} (E : Executor σ) (hfn : E.OnRunFn = none)
    (items : List Item) : onRunArgs (items.flatMap (runEvents E)) = [] := by
  induction items with
  | nil => rfl
  | cons m rest ih =>
    simp only [onRunArgs] at ih
    simp [onRunArgs, runEvents, hfn, List.filterMap_append, ih]

theorem isRunnable_spec (T : TimeEnv) (m : Item) (h : isRunnable T m = true) :
    m.CreatedAt.IsZero = true ∧ ∃ t, T.Parse m.Id = Except.ok t ∧ t ≠ T.min := by
  unfold isRunnable at h
  cases hp : T.Parse m.Id with
  | error err => simp [hp] at h
  | ok t =>
    simp only [hp, Bool.and_eq_true, Bool.not_eq_true', beq_eq_false_iff_ne, ne_eq] at h
    exact ⟨h.1, t, rfl, h.2⟩

theorem isRevertible_of_applied (T : TimeEnv) (m : Item) (t : Time)
    (hp : T.Parse m.Id = Except.ok t) (hmin : t ≠ T.min) (hz : m.CreatedAt.IsZero = false) :
    isRevertible T m = true := by
  simp [isRevertible, hp, hz, hmin]

theorem isRevertible_applied (T : TimeEnv) (m : Item) (h : isRevertible T m = true) :
    m.CreatedAt.IsZero = false := by
  unfold isRevertible at h
  cases hp : T.Parse m.Id with
  | error err => simp [hp] at h
  | ok t =>
    simp only [hp, Bool.and_eq_true, Bool.not_eq_true'] at h
    exact h.1

theorem revertVerdict_ne_stop_of_applied_ok (T : TimeEnv) (m : Item)
    (h : m.CreatedAt.IsZero = false → ∃ t, T.Parse m.Id = Except.ok t ∧ t ≠ T.min)
    (err : Option Error) : revertVerdict T m ≠ Verdict.stop err := by
  unfold revertVerdict
  cases hz : m.CreatedAt.IsZero with
  | true =>
    simp only [if_true]
    exact fun h' => Verdict.noConfusion h'
  | false =>
    obtain ⟨t, hp, hmin⟩ := h hz
    simp only [hp, hmin, Bool.false_eq_true, if_false, beq_iff_eq]
    exact fun h' => Verdict.noConfusion h'

theorem revertVerdict_ne_parse_error (T : TimeEnv) (m : Item)
    (h : m.CreatedAt.IsZero = false → ∃ t, T.Parse m.Id = Except.ok t)
    (e : Error) : revertVerdict T m ≠ Verdict.stop (some e) := by
  unfold revertVerdict
  cases hz : m.CreatedAt.IsZero with
  | true =>
    simp only [if_true]
    exact fun h' => Verdict.noConfusion h'
  | false =>
    obtain ⟨t, hp⟩ := h hz
    simp only [hp, Bool.false_eq_true, if_false]
    by_cases hmin : (t == T.min) = true
    · simp [hmin]
    · simp only [hmin, if_false]
      exact fun h' => Verdict.noConfusion h'

theorem onRunArgs_runEvents_sublist {σ : Type} (E : Executor σ) (items : List Item) :
    (onRunArgs (items.flatMap (runEvents E))).Sublist items := by
  cases hfn : E.OnRunFn with
  | none =>
    rw [onRunArgs_runEvents_none E hfn]
    exact List.nil_sublist _
  | some f =>
    rw [runEvents_of_hook E f hfn, onRunArgs_of_hook]

theorem onRevertArgs_revertEvents_sublist {σ : Type} (E : Executor σ) (items : List Item) :
    (onRevertArgs (items.flatMap (revertEvents E))).Sublist items := by
  cases hfn : E.OnRevertFn with
  | none =>
    have h : onRevertArgs (items.flatMap (revertEvents E)) = [] := by
      induction items with
      | nil => rfl
      | cons m rest ih =>
        simp only [onRevertArgs] at ih
        simp [onRevertArgs, revertEvents, hfn, List.filterMap_append, ih]
    rw [h]
    exact List.nil_sublist _
  | some g =>
    rw [revertEvents_of_hook E g hfn, onRevertArgs_of_hook]

/-! ## The model of `Format`: one Id per second -/

theorem civil_day_bounds (doy mp day : Int) (h0 : 0 ≤ doy) (h1 : doy ≤ 365)
    (hmp : mp = (5 * doy + 2) / 153) (hday : day = doy - (153 * mp + 2) / 5 + 1) :
    0 ≤ mp ∧ mp ≤ 11 ∧ 1 ≤ day ∧ day ≤ 31 := by
  have hmpb : 0 ≤ mp ∧ mp ≤ 11 := by omega
  have hcases : mp = 0 ∨ mp = 1 ∨ mp = 2 ∨ mp = 3 ∨ mp = 4 ∨ mp = 5 ∨ mp = 6 ∨ mp = 7 ∨
      mp = 8 ∨ mp = 9 ∨ mp = 10 ∨ mp = 11 := by omega
  refine ⟨hmpb.1, hmpb.2, ?_⟩
  rcases hcases with h | h | h | h | h | h | h | h | h | h | h | h <;> subst h <;> omega

theorem civil_year_bounds (doe yoe doy : Int) (h0 : 0 ≤ doe) (h1 : doe < 146097)
    (hyoe : yoe = (doe - doe / 1460 + doe / 36524 - doe / 146096) / 365)
    (hdoy : doy = doe - (365 * yoe + yoe / 4 - yoe / 100)) :
    0 ≤ yoe ∧ yoe ≤ 399 ∧ 0 ≤ doy ∧ doy ≤ 365 := by
  have hd : doe / 36524 = 0 ∨ doe / 36524 = 1 ∨ doe / 36524 = 2 ∨ doe / 36524 = 3 ∨
      doe / 36524 = 4 := by omega
  have hy : 0 ≤ yoe ∧ yoe ≤ 399 := by omega
  have hg : yoe / 100 = 0 ∨ yoe / 100 = 1 ∨ yoe / 100 = 2 ∨ yoe / 100 = 3 := by omega
  have hdoyb : 0 ≤ doy ∧ doy ≤ 365 := by
    rcases hd with hd | hd | hd | hd | hd <;> rcases hg with hg | hg | hg | hg <;> omega
  exact ⟨hy.1, hy.2, hdoyb.1, hdoyb.2⟩

theorem civil_core (doe yoe doy mp day : Int) (h0 : 0 ≤ doe) (h1 : doe < 146097)
    (hyoe : yoe = (doe - doe / 1460 + doe / 36524 - doe / 146096) / 365)
    (hdoy : doy = doe - (365 * yoe + yoe / 4 - yoe / 100))
    (hmp : mp = (5 * doy + 2) / 153)
    (hday : day = doy - (153 * mp + 2) / 5 + 1) :
    0 ≤ yoe ∧ yoe ≤ 399 ∧ 0 ≤ doy ∧ doy ≤ 365 ∧ 0 ≤ mp ∧ mp ≤ 11 ∧ 1 ≤ day ∧ day ≤ 31 := by
  obtain ⟨a, b, c, d⟩ := civil_year_bounds doe yoe doy h0 h1 hyoe hdoy
  obtain ⟨e, f, g, h⟩ := civil_day_bounds doy mp day c d hmp hday
  exact ⟨a, b, c, d, e, f, g, h⟩

theorem daysSinceYearOne_of (era yoe mp day : Int) (hy0 : 0 ≤ yoe) (hy1 : yoe ≤ 399)
    (hm0 : 0 ≤ mp) (hm1 : mp ≤ 11) (hd : 1 ≤ day) :
    daysSinceYearOne
        (yoe + era * 400 + (if (if mp < 10 then mp + 3 else mp - 9) ≤ 2 then 1 else 0))
        (if mp < 10 then mp + 3 else mp - 9).toNat day.toNat =
      era * 146097 + (yoe * 365 + yoe / 4 - yoe / 100 + ((153 * mp + 2) / 5 + day - 1)) - 306 := by
  have hday : ((day.toNat : Nat) : Int) = day := Int.toNat_of_nonneg (by omega)
  have hera : (yoe + era * 400) / 400 = era := by omega
  by_cases hm : mp < 10
  · have h1 : ¬ (mp + 3 ≤ 2) := by omega
    have h2 : ¬ ((mp + 3).toNat ≤ 2) := by omega
    have h3 : ((((mp + 3).toNat + 9) % 12 : Nat) : Int) = mp := by omega
    simp only [hm, if_true, h1, h2, if_false, add_zero, daysSinceYearOne, hera, h3, hday]
    omega
  · have h1 : mp - 9 ≤ 2 := by omega
    have h2 : (mp - 9).toNat ≤ 2 := by omega
    have h3 : ((((mp - 9).toNat + 9) % 12 : Nat) : Int) = mp := by omega
    have h4 : yoe + era * 400 + 1 - 1 = yoe + era * 400 := by omega
    simp only [hm, if_false, h1, h2, if_true, daysSinceYearOne, h4, hera, h3, hday]
    omega

theorem civil_left_inverse (d : Int) :
    daysSinceYearOne (civil d).1 (civil d).2.1 (civil d).2.2 = d := by
  obtain ⟨doe, hdoe⟩ : ∃ doe, doe = d + 306 - (d + 306) / 146097 * 146097 := ⟨_, rfl⟩
  obtain ⟨yoe, hyoe⟩ : ∃ yoe, yoe = (doe - doe / 1460 + doe / 36524 - doe / 146096) / 365 := ⟨_, rfl⟩
  obtain ⟨doy, hdoy⟩ : ∃ doy, doy = doe - (365 * yoe + yoe / 4 - yoe / 100) := ⟨_, rfl⟩
  obtain ⟨mp, hmp⟩ : ∃ mp, mp = (5 * doy + 2) / 153 := ⟨_, rfl⟩
  obtain ⟨day, hday⟩ : ∃ day, day = doy - (153 * mp + 2) / 5 + 1 := ⟨_, rfl⟩
  have hb := civil_core doe yoe doy mp day (by omega) (by omega) hyoe hdoy hmp hday
  have hc : civil d = (yoe + (d + 306) / 146097 * 400 + (if (if mp < 10 then mp + 3 else mp - 9) ≤ 2 then 1 else 0),
      (if mp < 10 then mp + 3 else mp - 9).toNat, day.toNat) := by
    simp only [civil, ← hdoe, ← hyoe, ← hdoy, ← hmp, ← hday]
  rw [hc]
  simp only
  rw [daysSinceYearOne_of _ yoe mp day hb.1 hb.2.1 hb.2.2.2.2.1 hb.2.2.2.2.2.1 hb.2.2.2.2.2.2.1]
  clear hb hc hmp hyoe
  omega

/-- The month and the day of every day have at most two digits. -/
theorem civil_fields (d : Int) :
    ∃ (y : Int) (mo dd : Nat), civil d = (y, mo, dd) ∧ mo < 100 ∧ dd < 100 := by
  obtain ⟨era, hera⟩ : ∃ era, era = (d + 306) / 146097 := ⟨_, rfl⟩
  obtain ⟨doe, hdoe⟩ : ∃ doe, doe = d + 306 - era * 146097 := ⟨_, rfl⟩
  obtain ⟨yoe, hyoe⟩ : ∃ yoe, yoe = (doe - doe / 1460 + doe / 36524 - doe / 146096) / 365 :=
    ⟨_, rfl⟩
  obtain ⟨doy, hdoy⟩ : ∃ doy, doy = doe - (365 * yoe + yoe / 4 - yoe / 100) := ⟨_, rfl⟩
  obtain ⟨mp, hmp⟩ : ∃ mp, mp = (5 * doy + 2) / 153 := ⟨_, rfl⟩
  obtain ⟨day, hday⟩ : ∃ day, day = doy - (153 * mp + 2) / 5 + 1 := ⟨_, rfl⟩
  have hdoe0 : 0 ≤ doe ∧ doe < 146097 := by omega
  have hb := civil_core doe yoe doy mp day hdoe0.1 hdoe0.2 hyoe hdoy hmp hday
  have hc : civil d =
      (yoe + era * 400 + (if (if mp < 10 then mp + 3 else mp - 9) ≤ 2 then 1 else 0),
        (if mp < 10 then mp + 3 else mp - 9).toNat, day.toNat) := by
    simp only [civil, ← hera, ← hdoe, ← hyoe, ← hdoy, ← hmp, ← hday]
  obtain ⟨-, -, -, -, hm0, hm1, hd0, hd1⟩ := hb
  refine ⟨_, _, _, hc, ?_, ?_⟩
  · by_cases hm : mp < 10
    · simp only [hm, if_true]
      omega
    · simp only [hm, if_false]
      omega
  · omega

theorem digit_char_inj : ∀ a < 10, ∀ b < 10, Char.ofNat (48 + a) = Char.ofNat (48 + b) → a = b := by
  decide

theorem pad2_inj (a b : Nat) (ha : a < 100) (hb : b < 100) (h : pad2 a = pad2 b) : a = b := by
  simp only [pad2, List.cons.injEq, and_true] at h
  have h1 := digit_char_inj (a / 10 % 10) (by omega) (b / 10 % 10) (by omega) h.1
  have h2 := digit_char_inj (a % 10) (by omega) (b % 10) (by omega) h.2
  omega

theorem pad2_append_inj (a b : Nat) (l l' : List Char) (h : pad2 a ++ l = pad2 b ++ l') :
    pad2 a = pad2 b ∧ l = l' := by
  simp only [pad2, List.cons_append, List.nil_append, List.cons.injEq] at h
  simp only [pad2, List.cons.injEq, and_true]
  exact ⟨⟨h.1, h.2.1⟩, h.2.2⟩

theorem digit_char_ne_minus : ∀ a < 10, Char.ofNat (48 + a) ≠ '-' := by
  decide

theorem digit_char_toNat : ∀ a < 10, (Char.ofNat (48 + a)).toNat - 48 = a := by
  decide

theorem wideDigits_length (n : Nat) : (wideDigits n).length = (Nat.digits 10 n).length := by
  simp [wideDigits]

theorem wideDigits_long (n : Nat) (h : 10000 ≤ n) : 5 ≤ (wideDigits n).length := by
  rw [wideDigits_length]
  by_contra hlt
  have hlen : (Nat.digits 10 n).length ≤ 4 := by omega
  have h1 : n < 10 ^ (Nat.digits 10 n).length := Nat.lt_base_pow_length_digits (by omega)
  have h2 : 10 ^ (Nat.digits 10 n).length ≤ 10 ^ 4 := Nat.pow_le_pow_right (by omega) hlen
  omega

theorem wideDigits_inj (a b : Nat) (h : wideDigits a = wideDigits b) : a = b := by
  have back : ∀ n : Nat, (wideDigits n).map (fun c => c.toNat - 48) = (Nat.digits 10 n).reverse := by
    intro n
    simp only [wideDigits, List.map_map]
    conv_rhs => rw [← List.map_id (Nat.digits 10 n).reverse]
    apply List.map_congr_left
    intro d hd
    exact digit_char_toNat d (Nat.digits_lt_base (by omega) (List.mem_reverse.mp hd))
  have h' := congrArg (List.map fun c => c.toNat - 48) h
  rw [back a, back b] at h'
  exact Nat.digits_inj_iff.mp (List.reverse_injective h')

theorem wideDigits_no_minus (n : Nat) : ∀ c ∈ wideDigits n, c ≠ '-' := by
  intro c hc
  simp only [wideDigits, List.mem_map, List.mem_reverse] at hc
  obtain ⟨d, hd, rfl⟩ := hc
  exact digit_char_ne_minus d (Nat.digits_lt_base (by omega) hd)

theorem yearDigits_no_minus (n : Nat) : ∀ c ∈ yearDigits n, c ≠ '-' := by
  intro c hc
  unfold yearDigits at hc
  by_cases hn : n < 10000
  · simp only [hn, if_true, pad2, List.cons_append, List.nil_append, List.mem_cons,
      List.not_mem_nil, or_false] at hc
    rcases hc with rfl | rfl | rfl | rfl <;> exact digit_char_ne_minus _ (by omega)
  · simp only [hn, if_false] at hc
    exact wideDigits_no_minus n c hc

theorem yearDigits_inj (a b : Nat) (h : yearDigits a = yearDigits b) : a = b := by
  unfold yearDigits at h
  by_cases ha : a < 10000 <;> by_cases hb : b < 10000
  · simp only [ha, hb, if_true] at h
    obtain ⟨e1, e2⟩ := pad2_append_inj _ _ _ _ h
    have f1 := pad2_inj _ _ (by omega) (by omega) e1
    have f2 := pad2_inj _ _ (by omega) (by omega) e2
    omega
  · simp only [ha, hb, if_true, if_false] at h
    have hl := congrArg List.length h
    have := wideDigits_long b (by omega)
    simp only [pad2, List.cons_append, List.nil_append, List.length_cons, List.length_nil] at hl
    omega
  · simp only [ha, hb, if_true, if_false] at h
    have hl := congrArg List.length h
    have := wideDigits_long a (by omega)
    simp only [pad2, List.cons_append, List.nil_append, List.length_cons, List.length_nil] at hl
    omega
  · simp only [ha, hb, if_false] at h
    exact wideDigits_inj a b h

theorem padYear_inj (y1 y2 : Int) (h : padYear y1 = padYear y2) : y1 = y2 := by
  unfold padYear at h
  by_cases h1 : y1 < 0 <;> by_cases h2 : y2 < 0
  · simp only [h1, h2, if_true, List.singleton_append, List.cons.injEq, true_and] at h
    have := yearDigits_inj _ _ h
    omega
  · simp only [h1, h2, if_true, if_false, List.singleton_append, List.nil_append] at h
    exact absurd rfl (yearDigits_no_minus y2.natAbs '-' (by rw [← h]; exact List.mem_cons_self _ _))
  · simp only [h1, h2, if_true, if_false, List.singleton_append, List.nil_append] at h
    exact absurd rfl (yearDigits_no_minus y1.natAbs '-' (by rw [h]; exact List.mem_cons_self _ _))
  · simp only [h1, h2, if_false, List.nil_append] at h
    have := yearDigits_inj _ _ h
    omega

theorem goFormat_of_fields (t : Time) (y : Int) (mo dd : Nat)
    (hc : civil (t.sec / 86400) = (y, mo, dd)) :
    goFormat t = String.mk (padYear y ++ (pad2 mo ++ (pad2 dd ++
      (pad2 ((t.sec % 86400).toNat / 3600) ++ (pad2 ((t.sec % 86400).toNat / 60 % 60) ++
        (pad2 ((t.sec % 86400).toNat % 60) ++ [])))))) := by
  simp only [goFormat, hc, List.append_assoc, List.append_nil]

/-- Two instants get the same Id in UTC exactly when they lie in the same second. -/
theorem goFormat_eq_iff (t1 t2 : Time) : goFormat t1 = goFormat t2 ↔ t1.sec = t2.sec := by
  constructor
  · intro h
    obtain ⟨y1, mo1, dd1, hc1, hmo1, hdd1⟩ := civil_fields (t1.sec / 86400)
    obtain ⟨y2, mo2, dd2, hc2, hmo2, hdd2⟩ := civil_fields (t2.sec / 86400)
    rw [goFormat_of_fields t1 y1 mo1 dd1 hc1, goFormat_of_fields t2 y2 mo2 dd2 hc2] at h
    have h := congrArg String.data h
    simp only at h
    obtain ⟨hy, h⟩ := List.append_inj' h (by simp [pad2])
    have hy := padYear_inj y1 y2 hy
    obtain ⟨e3, h⟩ := pad2_append_inj _ _ _ _ h
    obtain ⟨e4, h⟩ := pad2_append_inj _ _ _ _ h
    obtain ⟨e5, h⟩ := pad2_append_inj _ _ _ _ h
    obtain ⟨e6, h⟩ := pad2_append_inj _ _ _ _ h
    obtain ⟨e7, -⟩ := pad2_append_inj _ _ _ _ h
    have f3 := pad2_inj _ _ hmo1 hmo2 e3
    have f4 := pad2_inj _ _ hdd1 hdd2 e4
    have f5 := pad2_inj _ _ (by omega) (by omega) e5
    have f6 := pad2_inj _ _ (by omega) (by omega) e6
    have f7 := pad2_inj _ _ (by omega) (by omega) e7
    subst hy f3 f4
    have hd : t1.sec / 86400 = t2.sec / 86400 := by
      rw [← civil_left_inverse (t1.sec / 86400), ← civil_left_inverse (t2.sec / 86400), hc1, hc2]
    omega
  · intro h
    simp only [goFormat, h]

/-- In a location `loc`, two instants get the same Id exactly when their wall clocks agree to
the second. -/
theorem goFormatIn_eq_iff (loc : Location) (t1 t2 : Time) :
    goFormatIn loc t1 = goFormatIn loc t2 ↔ t1.sec + loc t1.sec = t2.sec + loc t2.sec :=
  goFormat_eq_iff ⟨t1.sec + loc t1.sec, t1.nsec⟩ ⟨t2.sec + loc t2.sec, t2.nsec⟩

/-! ## Claims -/

/-- C1: when the Provider returns a list whose Ids all parse and the Runner always succeeds,
`Run(k)` for a `k ≥ 0` returns nil and calls `Runner.Run` on exactly the first
`min(k, #pending)` Pending non-sentinel items of the list, in list order, each after the hook;
Applied and sentinel items are passed over without using the budget.  When every item is
Pending and non-sentinel and `0 < k < N`, these are the first `k` items of the list, so
`Runner.Run` is called exactly `k` times and on none of the remaining `N - k` items. -/
theorem run_executes_first_k {σ : Type} (T : TimeEnv) (E : Executor σ) (s : σ)
    (ms : List Item) (k : Nat)
    (hprov : E.Provider.Migrations s = Except.ok ms)
    (hparse : ∀ m ∈ ms, ∃ t, T.Parse m.Id = Except.ok t)
    (hrun : ∀ op st, (E.Runner.Run op st).1 = none)
    (hk : (k : Int) < 9223372036854775808) :
    (E.Run T k s).err = none ∧
    (E.Run T k s).trace = ((ms.filter (isRunnable T)).take k).flatMap (runEvents E) ∧
    runnerRunArgs (E.Run T k s).trace =
      ((ms.filter (isRunnable T)).take k).map (hookItem E.OnRunFn) ∧
    (runnerRunArgs (E.Run T k s).trace).length = min k (ms.filter (isRunnable T)).length ∧
    ((∀ m ∈ ms, isRunnable T m = true) → 0 < k → k < ms.length →
      runnerRunArgs (E.Run T k s).trace = (ms.take k).map (hookItem E.OnRunFn) ∧
      (runnerRunArgs (E.Run T k s).trace).length = k) := by
  have hv : ∀ m ∈ ms, ∀ err, (runOp T E).verdict m ≠ Verdict.stop err := by
    intro m hm err
    obtain ⟨t, ht⟩ := hparse m hm
    exact runVerdict_ne_stop_of_parse T m t ht err
  have hw := (runOp T E).walk_all_ok ms ⟨(k : Int), s, []⟩ hv
    ((runOp T E).succeeds_of_always hrun _ _)
    ⟨by show (-9223372036854775808 : Int) ≤ (k : Int); omega, hk⟩
  rw [← run_eq_walk T E k s ms hprov] at hw
  simp only [budget_natCast k hk, runOp_execItems, runOp_events, List.nil_append] at hw
  have htr : (E.Run T k s).trace = ((ms.filter (isRunnable T)).take k).flatMap (runEvents E) := by
    rw [hw]
  have hargs : runnerRunArgs (E.Run T k s).trace =
      ((ms.filter (isRunnable T)).take k).map (hookItem E.OnRunFn) := by
    rw [htr, runnerRunArgs_runEvents]
  refine ⟨by rw [hw], htr, hargs, ?_, ?_⟩
  · rw [hargs, List.length_map, List.length_take]
  · intro hall hk0 hkN
    have hfil : ms.filter (isRunnable T) = ms := List.filter_eq_self.mpr hall
    rw [hargs, hfil, List.length_map, List.length_take]
    exact ⟨rfl, by omega⟩

/-- C1, evaluated: on the three Pending scripts of the scenario `Run(2)` calls `Runner.Run` on
the first two, in order. -/
theorem run_executes_first_k_witness :
    runnerRunArgs ((ledgerExecutor scenarioScripts scenarioNow [] none none).Run goTime 2 []).trace =
      (scenarioScripts.take 2).map (hookItem none) ∧
    (runnerRunArgs
      ((ledgerExecutor scenarioScripts scenarioNow [] none none).Run goTime 2 []).trace).length = 2 :=
  (run_executes_first_k goTime (ledgerExecutor scenarioScripts scenarioNow [] none none) []
    scenarioScripts 2 (by decide)
    (by
      intro m hm
      simp only [scenarioScripts, List.mem_cons, List.mem_singleton, List.not_mem_nil,
        or_false] at hm
      rcases hm with rfl | rfl | rfl <;> exact ⟨_, rfl⟩)
    (by intro op st; simp [ledgerExecutor, ledgerRunner])
    (by decide)).2.2.2.2 (by decide) (by decide) (by decide)

/-- C2: the Provider's list begins with `j - 1` Pending non-sentinel items on which `Runner.Run`
succeeds when called on them in turn, followed by a Pending non-sentinel item on which it then
fails with `e`, and the budget is not used up before (`step < 0` or `j ≤ step`).  Then `Run`
returns exactly `e`; its calls are those for the first `j` items in order and nothing after
them; no `Runner.Revert` is called, and the world state is the one the failing call left on
top of the `j - 1` successful ones. -/
theorem run_stops_at_runner_error {σ : Type} (T : TimeEnv) (E : Executor σ) (s : σ)
    (pre : List Item) (m : Item) (post : List Item) (e : Error) (step : Int)
    (hprov : E.Provider.Migrations s = Except.ok (pre ++ m :: post))
    (hpend : ∀ x ∈ pre ++ [m], isRunnable T x = true)
    (hok : runSucceeds E pre s)
    (hfail : (E.Runner.Run (hookItem E.OnRunFn m) (runAllState E pre s)).1 = some e)
    (hr : InRange step) (hlen : (pre.length : Int) < 9223372036854775808)
    (hbudget : step < 0 ∨ (pre.length : Int) < step) :
    (E.Run T step s).err = some e ∧
    (E.Run T step s).trace = (pre ++ [m]).flatMap (runEvents E) ∧
    runnerRunArgs (E.Run T step s).trace = (pre ++ [m]).map (hookItem E.OnRunFn) ∧
    runnerRevertArgs (E.Run T step s).trace = [] ∧
    (E.Run T step s).state =
      (E.Runner.Run (hookItem E.OnRunFn m) (runAllState E pre s)).2 := by
  have hw := (runOp T E).walk_fail pre m post ⟨step, s, []⟩ e
    (fun x hx => (runVerdict_exec_iff T x).mpr (hpend x hx))
    ((runOp_succeeds T E pre s).mpr hok) hfail hr (budget_gt_of_step hr hlen hbudget)
  rw [← run_eq_walk T E step s (pre ++ m :: post) hprov] at hw
  simp only [runOp_events, List.nil_append] at hw
  have htr : (E.Run T step s).trace = (pre ++ [m]).flatMap (runEvents E) := by rw [hw]
  refine ⟨by rw [hw], htr, ?_, ?_, by rw [hw]; rfl⟩
  · rw [htr, runnerRunArgs_runEvents]
  · rw [htr, runnerRevertArgs_runEvents]

/-- C2, evaluated: the runner fails on the second of the three Pending scripts; `Run(3)`
returns its error, has called the runner on the first two scripts only, and the ledger holds
the row of the first. -/
theorem run_stops_at_runner_error_witness :
    ((ledgerExecutor scenarioScripts scenarioNow ["20240102000000"] none none).Run
        goTime 3 []).err = some "script failed" ∧
    runnerRunArgs ((ledgerExecutor scenarioScripts scenarioNow ["20240102000000"] none none).Run
        goTime 3 []).trace = scenarioScripts.take 2 ∧
    ((ledgerExecutor scenarioScripts scenarioNow ["20240102000000"] none none).Run
        goTime 3 []).state = [("20240101000000", scenarioNow)] := by
  have h := run_stops_at_runner_error goTime
    (ledgerExecutor scenarioScripts scenarioNow ["20240102000000"] none none) []
    (scenarioScripts.take 1) ⟨"20240102000000", "create orders", ⟨0, 0⟩⟩
    (scenarioScripts.drop 2) "script failed" 3 (by decide) (by decide)
    (by simp [runSucceeds, ledgerExecutor, ledgerRunner, hookItem, scenarioScripts])
    (by decide) (by unfold InRange; omega) (by decide) (by decide)
  exact ⟨h.1, h.2.2.1, h.2.2.2.2⟩

/-- C3, as stated, fails: with a hook that writes the sentinel Id into the item it is handed,
`Run(1)` on the three Pending scripts passes an item whose Id is the sentinel to
`Runner.Run`. -/
theorem sentinel_passed_after_hook :
    goTime.Format goTime.min = "00060524000000" ∧
    (⟨"00060524000000", "create users", ⟨0, 0⟩⟩ : Item) ∈
      runnerRunArgs ((ledgerExecutor scenarioScripts scenarioNow [] (some sentinelHook) none).Run
        goTime 1 []).trace := by
  decide

/-- C3, amended: the sentinel Id parses back to `min`.  Then for every list, step, Runner and
hooks, no item of the Provider's list whose Id is the sentinel is handed to `OnRunFn` or
`OnRevertFn`, and when the hook does not write the sentinel Id into an item that did not have
it, no item whose Id is the sentinel is passed to `Runner.Run` by `Run` or to `Runner.Revert`
by `Revert`. -/
theorem sentinel_never_executed {σ : Type} (T : TimeEnv) (E : Executor σ) (step : Int) (s : σ)
    (hround : T.Parse (T.Format T.min) = Except.ok T.min) :
    (∀ item ∈ onRunArgs (E.Run T step s).trace, item.Id ≠ T.Format T.min) ∧
    (∀ item ∈ onRevertArgs (E.Revert T step s).trace, item.Id ≠ T.Format T.min) ∧
    ((∀ m, m.Id ≠ T.Format T.min → (hookItem E.OnRunFn m).Id ≠ T.Format T.min) →
      ∀ op ∈ runnerRunArgs (E.Run T step s).trace, op.Id ≠ T.Format T.min) ∧
    ((∀ m, m.Id ≠ T.Format T.min → (hookItem E.OnRevertFn m).Id ≠ T.Format T.min) →
      ∀ op ∈ runnerRevertArgs (E.Revert T step s).trace, op.Id ≠ T.Format T.min) := by
  obtain ⟨ran, hran, htr, _, _⟩ := run_trace_shape T E step s
  obtain ⟨rev, hrev, htr', _, _⟩ := revert_trace_shape T E step s
  refine ⟨?_, ?_, ?_, ?_⟩
  · intro item hi
    rw [htr] at hi
    exact isRunnable_id_ne_sentinel T item hround
      (hran item (onRunArgs_runEvents_subset E ran item hi))
  · intro item hi
    rw [htr'] at hi
    exact isRevertible_id_ne_sentinel T item hround
      (hrev item (onRevertArgs_revertEvents_subset E rev item hi))
  · intro hfn op hop
    rw [htr, runnerRunArgs_runEvents] at hop
    obtain ⟨m, hm, rfl⟩ := List.mem_map.mp hop
    exact hfn m (isRunnable_id_ne_sentinel T m hround (hran m hm))
  · intro hfn op hop
    rw [htr', runnerRevertArgs_revertEvents] at hop
    obtain ⟨m, hm, rfl⟩ := List.mem_map.mp hop
    exact hfn m (isRevertible_id_ne_sentinel T m hround (hrev m hm))

/-- C3 amended, evaluated: a list that holds the bootstrap item, Applied, before the three
scripts; neither `RunAll` nor `RevertAll` passes an item with the sentinel Id to the runner. -/
theorem sentinel_never_executed_witness :
    (∀ op ∈ runnerRunArgs ((ledgerExecutor
        (⟨"00060524000000", "setup", ⟨0, 0⟩⟩ :: scenarioScripts) scenarioNow [] none none).Run
          goTime (-1) [("00060524000000", scenarioNow)]).trace,
      op.Id ≠ goTime.Format goTime.min) ∧
    (∀ op ∈ runnerRevertArgs ((ledgerExecutor
        (⟨"00060524000000", "setup", ⟨0, 0⟩⟩ :: scenarioScripts) scenarioNow [] none none).Revert
          goTime (-1) [("00060524000000", scenarioNow)]).trace,
      op.Id ≠ goTime.Format goTime.min) :=
  have h := sentinel_never_executed goTime (ledgerExecutor
    (⟨"00060524000000", "setup", ⟨0, 0⟩⟩ :: scenarioScripts) scenarioNow [] none none) (-1)
    [("00060524000000", scenarioNow)] (by decide)
  ⟨h.2.2.1 (fun _ hm => hm), h.2.2.2 (fun _ hm => hm)⟩

/-- C4: a ledger reading `R` such that a successful `Runner.Run` on an item records its Id and
keeps what was recorded; the Provider lists an item as Applied before the first call only
when it is recorded, lists every recorded item as Applied after it, and lists the same Ids
both times.  If the first `RunAll()` returns nil, the second `RunAll()` returns nil, calls
neither `Runner.Run` nor `OnRunFn`, and leaves the world state as it found it. -/
theorem runAll_twice_is_noop {σ : Type} (T : TimeEnv) (E : Executor σ)
    (R : σ → String → Prop) (s0 : σ) (ms0 ms1 : List Item)
    (hp0 : E.Provider.Migrations s0 = Except.ok ms0)
    (hp1 : E.Provider.Migrations (E.RunAll T s0).state = Except.ok ms1)
    (hlen : (ms0.length : Int) < 9223372036854775808)
    (hsucc : (E.RunAll T s0).err = none)
    (hrunner : ∀ m st, (E.Runner.Run (hookItem E.OnRunFn m) st).1 = none →
      R (E.Runner.Run (hookItem E.OnRunFn m) st).2 m.Id ∧
      ∀ id, R st id → R (E.Runner.Run (hookItem E.OnRunFn m) st).2 id)
    (hledger0 : ∀ m ∈ ms0, m.CreatedAt.IsZero = false → R s0 m.Id)
    (hledger1 : ∀ m ∈ ms1, R (E.RunAll T s0).state m.Id → m.CreatedAt.IsZero = false)
    (hsame : ∀ m1 ∈ ms1, ∃ m0 ∈ ms0, m0.Id = m1.Id) :
    E.RunAll T (E.RunAll T s0).state = ⟨none, (E.RunAll T s0).state, []⟩ := by
  have hr : InRange (-1) := by unfold InRange; omega
  have hb : ms0.length < budget (-1) := budget_gt_of_step hr hlen (Or.inl (by omega))
  have hw := run_eq_walk T E (-1) s0 ms0 hp0
  have herr : (walk (runOp T E).body ms0 ⟨-1, s0, []⟩).err = none := by
    rw [← hw]
    exact hsucc
  obtain ⟨hmono, hall⟩ := (runOp T E).walk_records R hrunner ms0 ⟨-1, s0, []⟩
    (fun m _ => runVerdict_ne_stop_none T m) hr hb herr
  rw [← hw] at hmono hall
  have hskip : ∀ m1 ∈ ms1, (runOp T E).verdict m1 = Verdict.skip := by
    intro m1 hm1
    obtain ⟨m0, hm0, hid⟩ := hsame m1 hm1
    obtain ⟨hparse, hexec⟩ := hall m0 hm0
    obtain ⟨t, ht⟩ := runVerdict_parse_of_ne_stop T m0 hparse
    have ht1 : T.Parse m1.Id = Except.ok t := by rw [← hid]; exact ht
    rcases runVerdict_cases_of_parse T m0 t ht with (hz | hmin) | hex
    · have h1 : R (E.Run T (-1) s0).state m1.Id := by
        rw [← hid]
        exact hmono _ (hledger0 m0 hm0 hz)
      exact runVerdict_skip_of_applied T m1 t ht1 (Or.inl (hledger1 m1 hm1 h1))
    · exact runVerdict_skip_of_applied T m1 t ht1 (Or.inr hmin)
    · have h1 : R (E.Run T (-1) s0).state m1.Id := by
        rw [← hid]
        exact hexec hex
      exact runVerdict_skip_of_applied T m1 t ht1 (Or.inl (hledger1 m1 hm1 h1))
  show E.Run T (-1) (E.RunAll T s0).state = _
  rw [run_eq_walk T E (-1) _ ms1 hp1]
  exact (runOp T E).walk_skip ms1 _ hskip

/-- C4, evaluated: over the ledger-backed provider and runner, `RunAll()` on the three Pending
scripts records three rows, and a second `RunAll()` makes no call and keeps the ledger. -/
theorem runAll_twice_is_noop_witness :
    ((ledgerExecutor scenarioScripts scenarioNow [] none none).RunAll goTime []).state =
      [("20240101000000", scenarioNow), ("20240102000000", scenarioNow),
        ("20240103000000", scenarioNow)] ∧
    (ledgerExecutor scenarioScripts scenarioNow [] none none).RunAll goTime
      ((ledgerExecutor scenarioScripts scenarioNow [] none none).RunAll goTime []).state =
      ⟨none, ((ledgerExecutor scenarioScripts scenarioNow [] none none).RunAll goTime []).state,
        []⟩ :=
  ⟨by decide,
    runAll_twice_is_noop goTime (ledgerExecutor scenarioScripts scenarioNow [] none none)
      recorded [] scenarioScripts
      (scenarioScripts.map fun m => ⟨m.Id, m.Description, scenarioNow⟩)
      (by decide) (by decide) (by decide) (by decide)
      (by
        intro m st _
        simp only [ledgerExecutor, ledgerRunner, hookItem, recorded, List.not_mem_nil,
          if_false, List.map_append, List.map_cons, List.map_nil, List.mem_append,
          List.mem_singleton, or_true, true_and]
        intro id h
        exact Or.inl h)
      (by decide) (by decide) (by decide)⟩

/-- C5: the Provider's list holds `N` Applied non-sentinel items with parsable Ids, in strictly
ascending Id order, and `Runner.Revert` always succeeds.  Then `Revert(N)` and `RevertAll()`
return nil and call `Runner.Revert` on every item once, last item first, which is strictly
descending Id order; under a ledger reading `R` from which a successful `Runner.Revert`
removes the Id of the item, no Id of the list is recorded afterwards.  In the scenario of
the three Pending scripts over the ledger-backed provider and runner, `Run(2)` runs the first
two, `RevertAll()` then reverts the second and the first, in that order and never the
third, and all three are Pending afterwards. -/
theorem revert_all_in_descending_order {σ : Type} (T : TimeEnv) (E : Executor σ)
    (R : σ → String → Prop) (s : σ) (ms : List Item)
    (hprov : E.Provider.Migrations s = Except.ok ms)
    (happlied : ∀ m ∈ ms, isRevertible T m = true)
    (hrev : ∀ op st, (E.Runner.Revert op st).1 = none)
    (hsorted : ms.Pairwise fun a b => a.Id < b.Id)
    (hlen : (ms.length : Int) < 9223372036854775808)
    (hdel : ∀ m st, ¬ R (E.Runner.Revert (hookItem E.OnRevertFn m) st).2 m.Id ∧
      ∀ id, ¬ R st id → ¬ R (E.Runner.Revert (hookItem E.OnRevertFn m) st).2 id) :
    (E.Revert T ms.length s =
      ⟨none, revertAllState E ms.reverse s, ms.reverse.flatMap (revertEvents E)⟩ ∧
     E.RevertAll T s = E.Revert T ms.length s ∧
     runnerRevertArgs (E.RevertAll T s).trace = ms.reverse.map (hookItem E.OnRevertFn) ∧
     (ms.reverse.Pairwise fun a b => b.Id < a.Id) ∧
     ∀ m ∈ ms, ¬ R (E.RevertAll T s).state m.Id) ∧
    (runnerRunArgs ((ledgerExecutor scenarioScripts scenarioNow [] none none).Run
        goTime 2 []).trace = scenarioScripts.take 2 ∧
     runnerRevertArgs ((ledgerExecutor scenarioScripts scenarioNow [] none none).RevertAll goTime
        ((ledgerExecutor scenarioScripts scenarioNow [] none none).Run goTime 2 []).state).trace =
       [⟨"20240102000000", "create orders", scenarioNow⟩,
        ⟨"20240101000000", "create users", scenarioNow⟩] ∧
     (ledgerExecutor scenarioScripts scenarioNow [] none none).Migrations
        ((ledgerExecutor scenarioScripts scenarioNow [] none none).RevertAll goTime
          ((ledgerExecutor scenarioScripts scenarioNow [] none none).Run goTime 2 []).state).state =
       Except.ok scenarioScripts) := by
  have hv : ∀ m ∈ ms.reverse, ∀ err, (revertOp T E).verdict m ≠ Verdict.stop err :=
    fun m hm err => revertVerdict_ne_stop_of_revertible T m
      (happlied m (List.mem_reverse.mp hm)) err
  have hfil : (revertOp T E).execItems ms.reverse = ms.reverse := by
    rw [revertOp_execItems]
    exact List.filter_eq_self.mpr fun m hm => happlied m (List.mem_reverse.mp hm)
  have hwalk : ∀ step : Int, InRange step → ms.length ≤ budget step →
      E.Revert T step s =
        ⟨none, revertAllState E ms.reverse s, ms.reverse.flatMap (revertEvents E)⟩ := by
    intro step hr hb
    have hw := (revertOp T E).walk_all_ok ms.reverse ⟨step, s, []⟩ hv
      (revertOp_succeeds T E _ _ hrev) hr
    rw [← revert_eq_walk T E step s ms hprov] at hw
    have htake : List.take (budget step) ms.reverse = ms.reverse :=
      List.take_of_length_le (by simpa using hb)
    simpa only [hfil, htake, revertOp_events, revertOp_allState, List.nil_append] using hw
  have hN : E.Revert T ms.length s = _ :=
    hwalk ms.length ⟨by omega, hlen⟩ (by rw [budget_natCast _ hlen])
  have hr1 : InRange (-1) := by unfold InRange; omega
  have hAll : E.RevertAll T s = _ :=
    hwalk (-1) hr1 (Nat.le_of_lt (budget_gt_of_step hr1 hlen (Or.inl (by omega))))
  refine ⟨⟨hN, by rw [hAll, hN], ?_, List.pairwise_reverse.mpr hsorted, ?_⟩, by decide⟩
  · rw [hAll]
    exact runnerRevertArgs_revertEvents E ms.reverse
  · intro m hm
    rw [hAll]
    exact ((revertOp T E).allState_clears R (fun x st _ => hdel x st) ms.reverse s
      (revertOp_succeeds T E _ _ hrev)).2 m (List.mem_reverse.mpr hm)

/-- C5, evaluated: the three scripts, all Applied; `Revert(3)` reverts the third, the second
and the first, in that order, and empties the ledger. -/
theorem revert_all_in_descending_order_witness :
    (ledgerExecutor scenarioScripts scenarioNow [] none none).Revert goTime 3
        [("20240101000000", scenarioNow), ("20240102000000", scenarioNow),
          ("20240103000000", scenarioNow)] =
      ⟨none, [],
        [Call.RunnerRevert ⟨"20240103000000", "add index", scenarioNow⟩,
         Call.RunnerRevert ⟨"20240102000000", "create orders", scenarioNow⟩,
         Call.RunnerRevert ⟨"20240101000000", "create users", scenarioNow⟩]⟩ :=
  ((revert_all_in_descending_order goTime (ledgerExecutor scenarioScripts scenarioNow [] none none)
    recorded
    [("20240101000000", scenarioNow), ("20240102000000", scenarioNow),
      ("20240103000000", scenarioNow)]
    (scenarioScripts.map fun m => ⟨m.Id, m.Description, scenarioNow⟩)
    (by decide) (by decide)
    (by intro op st; simp [ledgerExecutor, ledgerRunner])
    (by
      show List.Pairwise (fun a b : Item => a.Id < b.Id)
        [⟨"20240101000000", "create users", scenarioNow⟩,
         ⟨"20240102000000", "create orders", scenarioNow⟩,
         ⟨"20240103000000", "add index", scenarioNow⟩]
      refine List.pairwise_cons.mpr ⟨?_, List.pairwise_cons.mpr ⟨?_, List.pairwise_cons.mpr
        ⟨by simp, List.Pairwise.nil⟩⟩⟩
      · intro b hb
        simp only [List.mem_cons, List.mem_singleton, List.not_mem_nil, or_false] at hb
        rcases hb with rfl | rfl <;> exact String.lt_iff_toList_lt.mpr (by decide)
      · intro b hb
        simp only [List.mem_singleton] at hb
        subst hb
        exact String.lt_iff_toList_lt.mpr (by decide))
    (by decide)
    (by
      intro m st
      simp only [ledgerExecutor, ledgerRunner, hookItem, recorded, List.not_mem_nil, if_false,
        List.mem_map, List.mem_filter, not_exists, not_and]
      refine ⟨fun row hrow hid => ?_, fun id h row hrow hid => h row hrow.1 hid⟩
      simp [hid] at hrow)).1.1).trans (by decide)

/-- C6: the Provider's list has parsable Ids, `Runner.Run` always succeeds and `step` is
negative.  Then `Run(step)`, and so `RunAll() = Run(-1)`, returns nil after calling
`Runner.Run` once on every Pending non-sentinel item, in list order; the loop enters every
iteration, and leaves the last one, with a counter that is not zero, so that no iteration
returns.  And when all `N` items are Pending and non-sentinel, `Run(N)` runs all `N`. -/
theorem run_negative_is_unbounded {σ : Type} (T : TimeEnv) (E : Executor σ) (s : σ)
    (ms : List Item) (step : Int)
    (hprov : E.Provider.Migrations s = Except.ok ms)
    (hparse : ∀ m ∈ ms, ∃ t, T.Parse m.Id = Except.ok t)
    (hrun : ∀ op st, (E.Runner.Run op st).1 = none)
    (hr : InRange step) (hneg : step < 0)
    (hlen : (ms.length : Int) < 9223372036854775808) :
    (E.Run T step s).err = none ∧
    (E.Run T step s).trace = (ms.filter (isRunnable T)).flatMap (runEvents E) ∧
    runnerRunArgs (E.Run T step s).trace =
      (ms.filter (isRunnable T)).map (hookItem E.OnRunFn) ∧
    (∀ pre post, ms = pre ++ post →
      ∃ c', reach (runBody T E) pre ⟨step, s, []⟩ = some c' ∧ c'.step ≠ 0) ∧
    E.RunAll T s = E.Run T (-1) s ∧
    ((∀ m ∈ ms, isRunnable T m = true) →
      (E.Run T ms.length s).err = none ∧
      runnerRunArgs (E.Run T ms.length s).trace = ms.map (hookItem E.OnRunFn)) := by
  have hv : ∀ m ∈ ms, ∀ err, (runOp T E).verdict m ≠ Verdict.stop err := by
    intro m hm err
    obtain ⟨t, ht⟩ := hparse m hm
    exact runVerdict_ne_stop_of_parse T m t ht err
  have hwalk : ∀ st : Int, InRange st → ms.length ≤ budget st →
      E.Run T st s = ⟨none, runAllState E (ms.filter (isRunnable T)) s,
        (ms.filter (isRunnable T)).flatMap (runEvents E)⟩ := by
    intro st hst hb
    have hw := (runOp T E).walk_all_ok ms ⟨st, s, []⟩ hv
      ((runOp T E).succeeds_of_always hrun _ _) hst
    rw [← run_eq_walk T E st s ms hprov] at hw
    have htake : List.take (budget st) (ms.filter (isRunnable T)) = ms.filter (isRunnable T) :=
      List.take_of_length_le (le_trans (List.length_filter_le _ _) hb)
    simpa only [runOp_execItems, htake, runOp_events, runOp_allState, List.nil_append] using hw
  have hb : ms.length < budget step := budget_gt_of_step hr hlen (Or.inl hneg)
  have hs := hwalk step hr (Nat.le_of_lt hb)
  refine ⟨by rw [hs], by rw [hs], ?_, ?_, rfl, ?_⟩
  · rw [hs]
    exact runnerRunArgs_runEvents E _
  · intro pre post hsplit
    rw [runBody_eq_body]
    refine (runOp T E).reach_unbounded pre ⟨step, s, []⟩
      (fun m hm err => hv m (by rw [hsplit]; exact List.mem_append_left _ hm) err) hrun hr ?_
    have : pre.length ≤ ms.length := by rw [hsplit, List.length_append]; omega
    exact lt_of_le_of_lt this hb
  · intro hall
    have hN := hwalk ms.length ⟨by omega, hlen⟩ (by rw [budget_natCast _ hlen])
    have hfil : ms.filter (isRunnable T) = ms := List.filter_eq_self.mpr hall
    rw [hN, hfil]
    exact ⟨rfl, runnerRunArgs_runEvents E ms⟩

/-- C6, evaluated: `RunAll()` on the three Pending scripts runs all of them in order. -/
theorem run_negative_is_unbounded_witness :
    ((ledgerExecutor scenarioScripts scenarioNow [] none none).Run goTime (-1) []).err = none ∧
    runnerRunArgs ((ledgerExecutor scenarioScripts scenarioNow [] none none).Run
      goTime (-1) []).trace = scenarioScripts :=
  have h := run_negative_is_unbounded goTime
    (ledgerExecutor scenarioScripts scenarioNow [] none none) [] scenarioScripts (-1)
    (by decide)
    (by
      intro m hm
      simp only [scenarioScripts, List.mem_cons, List.mem_singleton, List.not_mem_nil,
        or_false] at hm
      rcases hm with rfl | rfl | rfl <;> exact ⟨_, rfl⟩)
    (by intro op st; simp [ledgerExecutor, ledgerRunner])
    (by unfold InRange; omega) (by decide) (by decide)
  ⟨h.1, h.2.2.1.trans (by decide)⟩

/-- C7: whatever list the Provider returns, `Run(0)` and `Revert(0)` return nil, make no call
on the runner or on a hook, and leave the world state as it was. -/
theorem zero_step_is_noop {σ : Type} (T : TimeEnv) (E : Executor σ) (s : σ) (ms : List Item)
    (hprov : E.Provider.Migrations s = Except.ok ms) :
    E.Run T 0 s = ⟨none, s, []⟩ ∧ E.Revert T 0 s = ⟨none, s, []⟩ := by
  constructor
  · rw [run_eq_walk T E 0 s ms hprov]
    exact (runOp T E).walk_zero ms ⟨0, s, []⟩ rfl
  · rw [revert_eq_walk T E 0 s ms hprov]
    exact (revertOp T E).walk_zero ms.reverse ⟨0, s, []⟩ rfl

/-- C7, evaluated: a list with the bootstrap item, Applied and Pending scripts and malformed
Ids; `Run(0)` and `Revert(0)` do nothing. -/
theorem zero_step_is_noop_witness :
    (ledgerExecutor mixedScripts scenarioNow [] (some sentinelHook) (some sentinelHook)).Run
        goTime 0 mixedLedger = ⟨none, mixedLedger, []⟩ ∧
    (ledgerExecutor mixedScripts scenarioNow [] (some sentinelHook) (some sentinelHook)).Revert
        goTime 0 mixedLedger = ⟨none, mixedLedger, []⟩ :=
  zero_step_is_noop goTime
    (ledgerExecutor mixedScripts scenarioNow [] (some sentinelHook) (some sentinelHook))
    mixedLedger
    [⟨"00060524000000", "setup", scenarioNow⟩,
     ⟨"20240101000000", "create users", scenarioNow⟩,
     ⟨"2024-01-02", "malformed, applied", scenarioNow⟩,
     ⟨"20240103000000", "add index", ⟨0, 0⟩⟩,
     ⟨"not a timestamp", "malformed, pending", ⟨0, 0⟩⟩]
    (by decide)

/-- C8: when `OnRunFn` is a hook `f`, the calls of `Run` come in pairs, for items `m` of the
Provider's list that are Pending and non-sentinel: `f` is handed (a copy of) `m`, then
`Runner.Run` is handed `f m`.  So the runner receives the Description that `f` wrote, not the
original one.  The same holds for `OnRevertFn`, `Runner.Revert` and the Applied non-sentinel
items that `Revert` reverts. -/
theorem hook_result_reaches_runner {σ : Type} (T : TimeEnv) (E : Executor σ) (step : Int)
    (s : σ) :
    (∀ f, E.OnRunFn = some f →
      (∃ ran : List Item, (∀ ms, E.Provider.Migrations s = Except.ok ms → ran.Sublist ms) ∧
        (∀ m ∈ ran, isRunnable T m = true) ∧
        (E.Run T step s).trace = ran.flatMap fun m => [Call.OnRunFn m, Call.RunnerRun (f m)]) ∧
      runnerRunArgs (E.Run T step s).trace = (onRunArgs (E.Run T step s).trace).map f) ∧
    (∀ g, E.OnRevertFn = some g →
      (∃ ran : List Item,
        (∀ ms, E.Provider.Migrations s = Except.ok ms → ran.Sublist ms.reverse) ∧
        (∀ m ∈ ran, isRevertible T m = true) ∧
        (E.Revert T step s).trace =
          ran.flatMap fun m => [Call.OnRevertFn m, Call.RunnerRevert (g m)]) ∧
      runnerRevertArgs (E.Revert T step s).trace =
        (onRevertArgs (E.Revert T step s).trace).map g) := by
  constructor
  · intro f hf
    obtain ⟨ran, hran, htr, hsub, _⟩ := run_trace_shape T E step s
    have hargs := runnerRunArgs_runEvents E ran
    rw [← htr] at hargs
    rw [runEvents_of_hook E f hf] at htr
    refine ⟨⟨ran, hsub, hran, htr⟩, ?_⟩
    rw [hargs, htr, onRunArgs_of_hook, hf]
    rfl
  · intro g hg
    obtain ⟨ran, hran, htr, hsub, _⟩ := revert_trace_shape T E step s
    have hargs := runnerRevertArgs_revertEvents E ran
    rw [← htr] at hargs
    rw [revertEvents_of_hook E g hg] at htr
    refine ⟨⟨ran, hsub, hran, htr⟩, ?_⟩
    rw [hargs, htr, onRevertArgs_of_hook, hg]
    rfl

/-- C8, evaluated: with a hook that writes the Description `"patched"`, `Run(1)` on the three
Pending scripts hands the first script to the hook and the patched item to the runner. -/
theorem hook_result_reaches_runner_witness :
    runnerRunArgs ((ledgerExecutor scenarioScripts scenarioNow [] (some describeHook) none).Run
        goTime 1 []).trace =
      (onRunArgs ((ledgerExecutor scenarioScripts scenarioNow [] (some describeHook) none).Run
        goTime 1 []).trace).map describeHook ∧
    ((ledgerExecutor scenarioScripts scenarioNow [] (some describeHook) none).Run
        goTime 1 []).trace =
      [Call.OnRunFn ⟨"20240101000000", "create users", ⟨0, 0⟩⟩,
       Call.RunnerRun ⟨"20240101000000", "patched", ⟨0, 0⟩⟩] :=
  ⟨((hook_result_reaches_runner goTime
      (ledgerExecutor scenarioScripts scenarioNow [] (some describeHook) none) 1 []).1
      describeHook rfl).2, by decide⟩

/-- C9: `Run` enters the iteration of an item with a counter that is not zero, no earlier
iteration having returned, and the Id of the item does not parse.  Then `Run` returns the
parse error with the world state and the calls of the earlier iterations: these are calls
for items before that one, so `Runner.Run` is called neither on it nor on a later item.
Nothing is assumed of the `CreatedAt` of the item. -/
theorem run_parse_error_aborts {σ : Type} (T : TimeEnv) (E : Executor σ) (s : σ)
    (pre : List Item) (m : Item) (post : List Item) (step : Int) (c' : Conf σ) (e : Error)
    (hprov : E.Provider.Migrations s = Except.ok (pre ++ m :: post))
    (hreach : reach (runBody T E) pre ⟨step, s, []⟩ = some c')
    (h0 : c'.step ≠ 0)
    (hparse : T.Parse m.Id = Except.error e) :
    E.Run T step s = ⟨some e, c'.state, c'.trace⟩ ∧
    ∃ ran : List Item, ran.Sublist pre ∧ (∀ x ∈ ran, isRunnable T x = true) ∧
      (E.Run T step s).trace = ran.flatMap (runEvents E) := by
  rw [runBody_eq_body] at hreach
  have hrun : E.Run T step s = ⟨some e, c'.state, c'.trace⟩ := by
    rw [run_eq_walk T E step s _ hprov, walk_append, hreach]
    have hv : (runOp T E).verdict m = Verdict.stop (some e) := by
      simp [runOp, runVerdict, hparse]
    simp [walk, (runOp T E).body_stop m c' (some e) h0 hv]
  refine ⟨hrun, ?_⟩
  obtain ⟨ran, hsub, hex, htr, _, _⟩ := (runOp T E).walk_shape pre ⟨step, s, []⟩
  rw [walk_of_reach _ pre _ c' hreach] at htr
  refine ⟨ran, hsub, fun x hx => (runVerdict_exec_iff T x).mp (hex x hx), ?_⟩
  rw [hrun]
  simpa [runOp_events] using htr

/-- C9, evaluated: in the mixed list the third item is Applied and its Id is malformed;
`RunAll()` passes over the bootstrap item and the Applied script, then returns the parse
error without any call. -/
theorem run_parse_error_aborts_witness :
    (ledgerExecutor mixedScripts scenarioNow [] none none).Run goTime (-1) mixedLedger =
      ⟨some "parsing time: cannot parse month", mixedLedger, []⟩ :=
  (run_parse_error_aborts goTime (ledgerExecutor mixedScripts scenarioNow [] none none)
    mixedLedger
    [⟨"00060524000000", "setup", scenarioNow⟩, ⟨"20240101000000", "create users", scenarioNow⟩]
    ⟨"2024-01-02", "malformed, applied", scenarioNow⟩
    [⟨"20240103000000", "add index", ⟨0, 0⟩⟩, ⟨"not a timestamp", "malformed, pending", ⟨0, 0⟩⟩]
    (-1) ⟨-1, mixedLedger, []⟩ "parsing time: cannot parse month"
    (by decide) (by decide) (by decide) (by decide)).1

/-- C10: `Revert` enters the iteration of an Applied item with a counter that is not zero, no
iteration for an item of higher index having returned.  If the Id of the item parses to
`min`, as the sentinel Id does when it parses back to `min`, `Revert` returns nil at once;
if the Id does not parse, `Revert` returns the parse error.  Either way the world state and
the calls are those of the iterations before: calls for items of higher index only, so
neither the hook nor `Runner.Revert` is called on the item, and no item of lower index is
looked at. -/
theorem revert_stops_at_sentinel {σ : Type} (T : TimeEnv) (E : Executor σ) (s : σ)
    (low : List Item) (m : Item) (high : List Item) (step : Int) (c' : Conf σ)
    (hprov : E.Provider.Migrations s = Except.ok (low ++ m :: high))
    (hreach : reach (revertBody T E) high.reverse ⟨step, s, []⟩ = some c')
    (h0 : c'.step ≠ 0)
    (happlied : m.CreatedAt.IsZero = false) :
    (T.Parse m.Id = Except.ok T.min → E.Revert T step s = ⟨none, c'.state, c'.trace⟩) ∧
    (T.Parse (T.Format T.min) = Except.ok T.min → m.Id = T.Format T.min →
      E.Revert T step s = ⟨none, c'.state, c'.trace⟩) ∧
    (∀ e, T.Parse m.Id = Except.error e → E.Revert T step s = ⟨some e, c'.state, c'.trace⟩) ∧
    ∃ ran : List Item, ran.Sublist high.reverse ∧ (∀ x ∈ ran, isRevertible T x = true) ∧
      c'.trace = ran.flatMap (revertEvents E) := by
  rw [revertBody_eq_body] at hreach
  have hstop : ∀ err, (revertOp T E).verdict m = Verdict.stop err →
      E.Revert T step s = ⟨err, c'.state, c'.trace⟩ := by
    intro err hv
    rw [revert_eq_walk T E step s _ hprov]
    have hrev : (low ++ m :: high).reverse = high.reverse ++ m :: low.reverse := by simp
    rw [hrev, walk_append, hreach]
    simp [walk, (revertOp T E).body_stop m c' err h0 hv]
  have hmin : T.Parse m.Id = Except.ok T.min →
      E.Revert T step s = ⟨none, c'.state, c'.trace⟩ := by
    intro hp
    exact hstop none (by simp [revertOp, revertVerdict, happlied, hp])
  refine ⟨hmin, ?_, ?_, ?_⟩
  · intro hround hid
    exact hmin (by rw [hid]; exact hround)
  · intro e hp
    exact hstop (some e) (by simp [revertOp, revertVerdict, happlied, hp])
  · obtain ⟨ran, hsub, hex, htr, _, _⟩ := (revertOp T E).walk_shape high.reverse ⟨step, s, []⟩
    rw [walk_of_reach _ high.reverse _ c' hreach] at htr
    exact ⟨ran, hsub, fun x hx => (revertVerdict_exec_iff T x).mp (hex x hx),
      by simpa [revertOp_events] using htr⟩

/-- C10, evaluated: `RevertAll()` on the bootstrap item and the three scripts, of which the
bootstrap item and the first script are Applied, reverts the first script and then returns nil
at the bootstrap item, whose row stays in the ledger; on the mixed list it returns the parse
error of the Applied item with the malformed Id. -/
theorem revert_stops_at_sentinel_witness :
    (ledgerExecutor bootstrapScripts scenarioNow [] none none).Revert goTime (-1)
        bootstrapLedger =
      ⟨none, [("00060524000000", scenarioNow)],
        [Call.RunnerRevert ⟨"20240101000000", "create users", scenarioNow⟩]⟩ ∧
    (ledgerExecutor mixedScripts scenarioNow [] none none).Revert goTime (-1) mixedLedger =
      ⟨some "parsing time: cannot parse month", mixedLedger, []⟩ :=
  ⟨(revert_stops_at_sentinel goTime (ledgerExecutor bootstrapScripts scenarioNow [] none none)
      bootstrapLedger [] ⟨"00060524000000", "setup", scenarioNow⟩
      [⟨"20240101000000", "create users", scenarioNow⟩,
       ⟨"20240102000000", "create orders", ⟨0, 0⟩⟩,
       ⟨"20240103000000", "add index", ⟨0, 0⟩⟩]
      (-1)
      ⟨-2, [("00060524000000", scenarioNow)],
        [Call.RunnerRevert ⟨"20240101000000", "create users", scenarioNow⟩]⟩
      (by decide) (by decide) (by decide) (by decide)).2.1 (by decide) (by decide),
   (revert_stops_at_sentinel goTime (ledgerExecutor mixedScripts scenarioNow [] none none)
      mixedLedger
      [⟨"00060524000000", "setup", scenarioNow⟩,
       ⟨"20240101000000", "create users", scenarioNow⟩]
      ⟨"2024-01-02", "malformed, applied", scenarioNow⟩
      [⟨"20240103000000", "add index", ⟨0, 0⟩⟩,
       ⟨"not a timestamp", "malformed, pending", ⟨0, 0⟩⟩]
      (-1) ⟨-1, mixedLedger, []⟩
      (by decide) (by decide) (by decide) (by decide)).2.2.1
        "parsing time: cannot parse month" (by decide)⟩

/-- C11: when `Provider.Migrations()` returns an error `e`, then `Run(step)` and
`Revert(step)`, for every step, and `Migrations()` return exactly `e`; `Run` and `Revert`
make no call on the runner or on a hook and leave the world state as it was. -/
theorem provider_error_is_returned {σ : Type} (T : TimeEnv) (E : Executor σ) (step : Int)
    (s : σ) (e : Error) (hprov : E.Provider.Migrations s = Except.error e) :
    E.Run T step s = ⟨some e, s, []⟩ ∧ E.Revert T step s = ⟨some e, s, []⟩ ∧
    E.Migrations s = Except.error e := by
  refine ⟨?_, ?_, hprov⟩
  · simp [Executor.Run, Executor.Migrations, hprov]
  · simp [Executor.Revert, Executor.Migrations, hprov]

/-- C11, evaluated: a provider that fails with `"disk unreadable"`; `Run(0)` and `Revert(0)`
return that error without a call. -/
theorem provider_error_is_returned_witness :
    (⟨failingProvider Ledger "disk unreadable", ledgerRunner scenarioNow [],
        nullGenerator Ledger, some describeHook, some describeHook⟩ : Executor Ledger).Run
      goTime 0 mixedLedger = ⟨some "disk unreadable", mixedLedger, []⟩ ∧
    (⟨failingProvider Ledger "disk unreadable", ledgerRunner scenarioNow [],
        nullGenerator Ledger, some describeHook, some describeHook⟩ : Executor Ledger).Revert
      goTime 0 mixedLedger = ⟨some "disk unreadable", mixedLedger, []⟩ :=
  have h := provider_error_is_returned goTime
    (⟨failingProvider Ledger "disk unreadable", ledgerRunner scenarioNow [],
      nullGenerator Ledger, some describeHook, some describeHook⟩ : Executor Ledger)
    0 mixedLedger "disk unreadable" rfl
  ⟨h.1, h.2.1⟩

/-- C12, as stated, fails: at the instant 2024-01-04 12:00:00 the item that `Create` hands to
`Generator.Create` has a `CreatedAt` that is not zero. -/
theorem create_item_is_not_pending :
    generatorCreateArgs
      ((ledgerExecutor scenarioScripts scenarioNow [] none none).Create goTime scenarioNow
        "add users" []).trace =
      [⟨"20240104120000", "add users", scenarioNow⟩] ∧
    scenarioNow.IsZero = false := by
  decide

/-- C12, amended: for every name and every current time, `Create` makes one call, on
`Generator.Create`, with the item whose Id is the current time formatted with the Id format,
whose Description is the name and whose `CreatedAt` is the current time; it returns what
`Generator.Create` returns.  The `CreatedAt` is zero only when the clock reads the zero
instant. -/
theorem create_builds_timestamped_item {σ : Type} (T : TimeEnv) (E : Executor σ) (now : Time)
    (name : String) (s : σ) :
    (E.Create T now name s).trace = [Call.GeneratorCreate ⟨T.Format now, name, now⟩] ∧
    (E.Create T now name s).result = (E.Generator.Create ⟨T.Format now, name, now⟩ s).1 ∧
    (E.Create T now name s).state = (E.Generator.Create ⟨T.Format now, name, now⟩ s).2 ∧
    ∀ item ∈ generatorCreateArgs (E.Create T now name s).trace,
      item.Id = T.Format now ∧ item.Description = name ∧ item.CreatedAt = now ∧
      (item.CreatedAt.IsZero = true ↔ now = ⟨0, 0⟩) := by
  have htr : (E.Create T now name s).trace = [Call.GeneratorCreate ⟨T.Format now, name, now⟩] :=
    rfl
  refine ⟨htr, rfl, rfl, ?_⟩
  intro item hitem
  rw [htr] at hitem
  simp only [generatorCreateArgs, List.filterMap_cons, List.filterMap_nil,
    List.mem_singleton] at hitem
  subst hitem
  refine ⟨rfl, rfl, rfl, ?_⟩
  cases now with
  | mk sec nsec =>
    simp [Time.IsZero]

/-- C14: `Setup` builds the item with the sentinel Id and the Description `"setup"` and calls
`Generator.Write` with it first.  If that returns an error, `Setup` returns it and
`Runner.Run` is not called; otherwise `Setup` calls `Runner.Run` with the same item and
returns exactly what `Runner.Run` returns. -/
theorem setup_writes_then_runs {σ : Type} (T : TimeEnv) (E : Executor σ) (now : Time) (s : σ) :
    (∀ e, (E.Generator.Write ⟨T.Format T.min, "setup", now⟩ setupContent s).1 = some e →
      E.Setup T now s =
        ⟨some e, (E.Generator.Write ⟨T.Format T.min, "setup", now⟩ setupContent s).2,
          [Call.GeneratorWrite ⟨T.Format T.min, "setup", now⟩ setupContent]⟩) ∧
    ((E.Generator.Write ⟨T.Format T.min, "setup", now⟩ setupContent s).1 = none →
      E.Setup T now s =
        ⟨(E.Runner.Run ⟨T.Format T.min, "setup", now⟩
            (E.Generator.Write ⟨T.Format T.min, "setup", now⟩ setupContent s).2).1,
          (E.Runner.Run ⟨T.Format T.min, "setup", now⟩
            (E.Generator.Write ⟨T.Format T.min, "setup", now⟩ setupContent s).2).2,
          [Call.GeneratorWrite ⟨T.Format T.min, "setup", now⟩ setupContent,
            Call.RunnerRun ⟨T.Format T.min, "setup", now⟩]⟩) := by
  constructor
  · intro e he
    cases hw : E.Generator.Write ⟨T.Format T.min, "setup", now⟩ setupContent s with
    | mk r s1 =>
      rw [hw] at he
      simp only at he
      subst he
      simp only [Executor.Setup, hw]
  · intro he
    cases hw : E.Generator.Write ⟨T.Format T.min, "setup", now⟩ setupContent s with
    | mk r s1 =>
      rw [hw] at he
      simp only at he
      subst he
      simp only [Executor.Setup, hw]

/-- C14, evaluated: with a generator that fails, `Setup` returns its error after the one call
on `Generator.Write`; with one that succeeds, `Setup` runs the bootstrap item and the ledger
holds its row. -/
theorem setup_writes_then_runs_witness :
    (⟨ledgerProvider [], ledgerRunner scenarioNow [], failingGenerator Ledger "read-only",
        none, none⟩ : Executor Ledger).Setup goTime scenarioNow [] =
      ⟨some "read-only", [],
        [Call.GeneratorWrite ⟨"00060524000000", "setup", scenarioNow⟩ setupContent]⟩ ∧
    (ledgerExecutor [] scenarioNow [] none none).Setup goTime scenarioNow [] =
      ⟨none, [("00060524000000", scenarioNow)],
        [Call.GeneratorWrite ⟨"00060524000000", "setup", scenarioNow⟩ setupContent,
          Call.RunnerRun ⟨"00060524000000", "setup", scenarioNow⟩]⟩ :=
  ⟨((setup_writes_then_runs goTime
      (⟨ledgerProvider [], ledgerRunner scenarioNow [], failingGenerator Ledger "read-only",
        none, none⟩ : Executor Ledger) scenarioNow []).1 "read-only" rfl).trans (by decide),
   ((setup_writes_then_runs goTime (ledgerExecutor [] scenarioNow [] none none)
      scenarioNow []).2 rfl).trans (by decide)⟩

/-- C12 amended, evaluated: `Create("add users")` at 2024-01-04 12:00:00 hands the generator
the item with the Id `"20240104120000"`, that name and that instant. -/
theorem create_builds_timestamped_item_witness :
    ((ledgerExecutor scenarioScripts scenarioNow [] none none).Create goTime scenarioNow
        "add users" []).trace =
      [Call.GeneratorCreate ⟨"20240104120000", "add users", scenarioNow⟩] ∧
    ∀ item ∈ generatorCreateArgs
        ((ledgerExecutor scenarioScripts scenarioNow [] none none).Create goTime scenarioNow
          "add users" []).trace,
      item.Id = goTime.Format scenarioNow ∧ item.Description = "add users" ∧
        item.CreatedAt = scenarioNow ∧
        (item.CreatedAt.IsZero = true ↔ scenarioNow = ⟨0, 0⟩) :=
  have h := create_builds_timestamped_item goTime
    (ledgerExecutor scenarioScripts scenarioNow [] none none) scenarioNow "add users" []
  ⟨h.1.trans (by decide), h.2.2.2⟩

/-- C15: the Provider's list ends with `j - 1` Applied non-sentinel items on which
`Runner.Revert` succeeds when called on them in turn, last first, preceded by an Applied
non-sentinel item on which it then fails with `e`.  When the budget reaches that item
(`step < 0` or `j ≤ step`), `Revert` returns exactly `e` and its calls are those for these
`j` items, so `Runner.Revert` is called on no item of lower index.  When the budget ends
before (`0 ≤ step < j`), the failing call is not made and `Revert` returns nil. -/
theorem revert_stops_at_runner_error {σ : Type} (T : TimeEnv) (E : Executor σ) (s : σ)
    (low : List Item) (m : Item) (high : List Item) (e : Error) (step : Int)
    (hprov : E.Provider.Migrations s = Except.ok (low ++ m :: high))
    (happlied : ∀ x ∈ m :: high, isRevertible T x = true)
    (hok : revertSucceeds E high.reverse s)
    (hfail : (E.Runner.Revert (hookItem E.OnRevertFn m)
      (revertAllState E high.reverse s)).1 = some e)
    (hr : InRange step) (hlen : (high.length : Int) < 9223372036854775808) :
    ((step < 0 ∨ (high.length : Int) < step) →
      (E.Revert T step s).err = some e ∧
      (E.Revert T step s).trace = (high.reverse ++ [m]).flatMap (revertEvents E) ∧
      runnerRevertArgs (E.Revert T step s).trace =
        (high.reverse ++ [m]).map (hookItem E.OnRevertFn) ∧
      (E.Revert T step s).state =
        (E.Runner.Revert (hookItem E.OnRevertFn m) (revertAllState E high.reverse s)).2) ∧
    (0 ≤ step → step ≤ (high.length : Int) →
      (E.Revert T step s).err = none ∧
      runnerRevertArgs (E.Revert T step s).trace =
        (high.reverse.take step.toNat).map (hookItem E.OnRevertFn)) := by
  have hrev : (low ++ m :: high).reverse = high.reverse ++ m :: low.reverse := by simp
  have hw := revert_eq_walk T E step s _ hprov
  rw [hrev] at hw
  have hsucc := (revertOp_succeeds_iff T E high.reverse s).mpr hok
  have hlen' : ((high.reverse).length : Int) < 9223372036854775808 := by simpa using hlen
  constructor
  · intro hbudget
    have hf := (revertOp T E).walk_fail high.reverse m low.reverse ⟨step, s, []⟩ e
      (fun x hx => (revertVerdict_exec_iff T x).mpr (happlied x (by
        rcases List.mem_append.mp hx with h | h
        · exact List.mem_cons_of_mem m (List.mem_reverse.mp h)
        · simp only [List.mem_singleton] at h
          subst h
          exact List.mem_cons_self _ _)))
      hsucc hfail hr
      (budget_gt_of_step hr hlen' (by simpa using hbudget))
    rw [← hw] at hf
    simp only [revertOp_events, List.nil_append] at hf
    have htr : (E.Revert T step s).trace = (high.reverse ++ [m]).flatMap (revertEvents E) := by
      rw [hf]
    refine ⟨by rw [hf], htr, ?_, by rw [hf]; rfl⟩
    rw [htr, runnerRevertArgs_revertEvents]
  · intro h0 hle
    have hv : ∀ x ∈ high.reverse, ∀ err, (revertOp T E).verdict x ≠ Verdict.stop err :=
      fun x hx err => revertVerdict_ne_stop_of_revertible T x
        (happlied x (List.mem_cons_of_mem m (List.mem_reverse.mp hx))) err
    have hfil : (revertOp T E).execItems high.reverse = high.reverse := by
      rw [revertOp_execItems]
      exact List.filter_eq_self.mpr fun x hx =>
        happlied x (List.mem_cons_of_mem m (List.mem_reverse.mp hx))
    have hbud : budget step = step.toNat := by
      have := budget_natCast step.toNat (by omega)
      rwa [Int.toNat_of_nonneg h0] at this
    have hs : (revertOp T E).succeeds
        (((revertOp T E).execItems high.reverse).take (budget step)) s := by
      rw [hfil]
      exact (revertOp T E).succeeds_take _ _ _ hsucc
    have hout := (revertOp T E).walk_budget_out high.reverse (m :: low.reverse)
      ⟨step, s, []⟩ hv hs hr (by
        rw [hfil, List.length_reverse]
        simp only [hbud]
        omega)
    rw [← hw, (revertOp T E).walk_all_ok high.reverse ⟨step, s, []⟩ hv hs hr] at hout
    simp only [hfil, hbud, revertOp_events, List.nil_append] at hout
    rw [hout]
    exact ⟨rfl, runnerRevertArgs_revertEvents E _⟩

/-- C15, evaluated: all three scripts are Applied and the runner fails on the second;
`RevertAll()` reverts the third, calls the runner on the second, returns its error and does
not touch the first. -/
theorem revert_stops_at_runner_error_witness :
    ((ledgerExecutor scenarioScripts scenarioNow ["20240102000000"] none none).Revert
        goTime (-1) appliedLedger).err = some "script failed" ∧
    runnerRevertArgs ((ledgerExecutor scenarioScripts scenarioNow ["20240102000000"] none
        none).Revert goTime (-1) appliedLedger).trace =
      [⟨"20240103000000", "add index", scenarioNow⟩,
       ⟨"20240102000000", "create orders", scenarioNow⟩] :=
  have h := (revert_stops_at_runner_error goTime
    (ledgerExecutor scenarioScripts scenarioNow ["20240102000000"] none none) appliedLedger
    (appliedScripts.take 1) ⟨"20240102000000", "create orders", scenarioNow⟩
    (appliedScripts.drop 2) "script failed" (-1) (by decide) (by decide)
    (by simp [revertSucceeds, ledgerExecutor, ledgerRunner, hookItem, appliedScripts])
    (by decide) (by unfold InRange; omega) (by decide)).1 (Or.inl (by decide))
  ⟨h.1, h.2.2.1.trans (by decide)⟩

/-- C16: for every list, step and Runner, every item that `Run` hands to `OnRunFn` is a
Pending item whose Id parses to an instant other than `min`, so none that is skipped as
Applied or as the sentinel.  When the hook is set, the calls of `Run` are pairs, the hook
on an item immediately followed by `Runner.Run` on what it left of that item, and nothing
else; when the hook is nil there is no hook call. -/
theorem hooks_fire_only_for_executed_items {σ : Type} (T : TimeEnv) (E : Executor σ)
    (step : Int) (s : σ) :
    (∀ item ∈ onRunArgs (E.Run T step s).trace,
      item.CreatedAt.IsZero = true ∧ ∃ t, T.Parse item.Id = Except.ok t ∧ t ≠ T.min) ∧
    (∀ f, E.OnRunFn = some f →
      (E.Run T step s).trace =
        (onRunArgs (E.Run T step s).trace).flatMap
          (fun m => [Call.OnRunFn m, Call.RunnerRun (f m)]) ∧
      runnerRunArgs (E.Run T step s).trace = (onRunArgs (E.Run T step s).trace).map f ∧
      (onRunArgs (E.Run T step s).trace).length = (runnerRunArgs (E.Run T step s).trace).length ∧
      ∀ ms, E.Provider.Migrations s = Except.ok ms →
        (onRunArgs (E.Run T step s).trace).Sublist ms) ∧
    (E.OnRunFn = none → onRunArgs (E.Run T step s).trace = []) := by
  obtain ⟨ran, hran, htr, hsub, _⟩ := run_trace_shape T E step s
  refine ⟨?_, ?_, ?_⟩
  · intro item hitem
    rw [htr] at hitem
    exact isRunnable_spec T item (hran item (onRunArgs_runEvents_subset E ran item hitem))
  · intro f hf
    have hargs := runnerRunArgs_runEvents E ran
    rw [← htr] at hargs
    rw [runEvents_of_hook E f hf] at htr
    have hon : onRunArgs (E.Run T step s).trace = ran := by
      rw [htr, onRunArgs_of_hook]
    rw [hon, hargs, hf]
    exact ⟨htr, rfl, by simp [hookItem], hsub⟩
  · intro hnone
    rw [htr]
    exact onRunArgs_runEvents_none E hnone ran

/-- C16, evaluated: in the list of the bootstrap item, an Applied script and two Pending
scripts, `RunAll()` with a hook pairs a hook call with a runner call for each of the two
Pending scripts and for nothing else. -/
theorem hooks_fire_only_for_executed_items_witness :
    ((ledgerExecutor bootstrapScripts scenarioNow [] (some describeHook) none).Run
        goTime (-1) bootstrapLedger).trace =
      [Call.OnRunFn ⟨"20240102000000", "create orders", ⟨0, 0⟩⟩,
       Call.RunnerRun ⟨"20240102000000", "patched", ⟨0, 0⟩⟩,
       Call.OnRunFn ⟨"20240103000000", "add index", ⟨0, 0⟩⟩,
       Call.RunnerRun ⟨"20240103000000", "patched", ⟨0, 0⟩⟩] ∧
    runnerRunArgs ((ledgerExecutor bootstrapScripts scenarioNow [] (some describeHook)
        none).Run goTime (-1) bootstrapLedger).trace =
      (onRunArgs ((ledgerExecutor bootstrapScripts scenarioNow [] (some describeHook)
        none).Run goTime (-1) bootstrapLedger).trace).map describeHook :=
  ⟨by decide,
    ((hooks_fire_only_for_executed_items goTime
      (ledgerExecutor bootstrapScripts scenarioNow [] (some describeHook) none) (-1)
      bootstrapLedger).2.1 describeHook rfl).2.1⟩

/-- C17: the Provider's list has parsable Ids, no Applied item of it parses to `min`, and
`Runner.Revert` always succeeds.  Then for `k ≥ 0`, `Revert(k)` returns nil and calls
`Runner.Revert` on exactly the last `min(k, #applied)` Applied items, in reverse list order;
Pending items are passed over without using the budget.  For a negative step every Applied
item is reverted. -/
theorem revert_reverts_last_k {σ : Type} (T : TimeEnv) (E : Executor σ) (s : σ)
    (ms : List Item) (k : Nat)
    (hprov : E.Provider.Migrations s = Except.ok ms)
    (hparse : ∀ m ∈ ms, ∃ t, T.Parse m.Id = Except.ok t)
    (hnosent : ∀ m ∈ ms, m.CreatedAt.IsZero = false → T.Parse m.Id ≠ Except.ok T.min)
    (hrev : ∀ op st, (E.Runner.Revert op st).1 = none)
    (hk : (k : Int) < 9223372036854775808)
    (hlen : (ms.length : Int) < 9223372036854775808) :
    (E.Revert T k s).err = none ∧
    (E.Revert T k s).trace =
      (((ms.filter fun m => !m.CreatedAt.IsZero).reverse).take k).flatMap (revertEvents E) ∧
    runnerRevertArgs (E.Revert T k s).trace =
      (((ms.filter fun m => !m.CreatedAt.IsZero).reverse).take k).map
        (hookItem E.OnRevertFn) ∧
    (runnerRevertArgs (E.Revert T k s).trace).length =
      min k (ms.filter fun m => !m.CreatedAt.IsZero).length ∧
    ∀ step : Int, InRange step → step < 0 →
      (E.Revert T step s).err = none ∧
      runnerRevertArgs (E.Revert T step s).trace =
        ((ms.filter fun m => !m.CreatedAt.IsZero).reverse).map (hookItem E.OnRevertFn) := by
  have hok : ∀ m ∈ ms, m.CreatedAt.IsZero = false →
      ∃ t, T.Parse m.Id = Except.ok t ∧ t ≠ T.min := by
    intro m hm hz
    obtain ⟨t, ht⟩ := hparse m hm
    exact ⟨t, ht, fun h => hnosent m hm hz (by rw [ht, h])⟩
  have hv : ∀ m ∈ ms.reverse, ∀ err, (revertOp T E).verdict m ≠ Verdict.stop err :=
    fun m hm err => revertVerdict_ne_stop_of_applied_ok T m (hok m (List.mem_reverse.mp hm)) err
  have hfil : (revertOp T E).execItems ms.reverse =
      (ms.filter fun m => !m.CreatedAt.IsZero).reverse := by
    rw [revertOp_execItems, List.filter_reverse]
    congr 1
    apply List.filter_congr
    intro m hm
    cases hz : m.CreatedAt.IsZero with
    | true =>
      cases hr : isRevertible T m with
      | false => rfl
      | true => exact absurd (isRevertible_applied T m hr) (by simp [hz])
    | false =>
      obtain ⟨t, ht, hmin⟩ := hok m hm hz
      simpa using isRevertible_of_applied T m t ht hmin hz
  have hwalk : ∀ step : Int, InRange step →
      E.Revert T step s =
        ⟨none, revertAllState E
            (((ms.filter fun m => !m.CreatedAt.IsZero).reverse).take (budget step)) s,
          (((ms.filter fun m => !m.CreatedAt.IsZero).reverse).take (budget step)).flatMap
            (revertEvents E)⟩ := by
    intro step hr
    have hw := (revertOp T E).walk_all_ok ms.reverse ⟨step, s, []⟩ hv
      (revertOp_succeeds T E _ _ hrev) hr
    rw [← revert_eq_walk T E step s ms hprov] at hw
    simpa only [hfil, revertOp_events, revertOp_allState, List.nil_append] using hw
  have hK := hwalk k ⟨by omega, hk⟩
  rw [budget_natCast k hk] at hK
  have hargs : runnerRevertArgs (E.Revert T k s).trace =
      (((ms.filter fun m => !m.CreatedAt.IsZero).reverse).take k).map
        (hookItem E.OnRevertFn) := by
    rw [hK]
    exact runnerRevertArgs_revertEvents E _
  refine ⟨by rw [hK], by rw [hK], hargs, ?_, ?_⟩
  · rw [hargs, List.length_map, List.length_take, List.length_reverse]
  · intro step hr hneg
    have hS := hwalk step hr
    have hb : ms.length < budget step := budget_gt_of_step hr hlen (Or.inl hneg)
    have htake : ((ms.filter fun m => !m.CreatedAt.IsZero).reverse).take (budget step) =
        (ms.filter fun m => !m.CreatedAt.IsZero).reverse :=
      List.take_of_length_le (by
        rw [List.length_reverse]
        exact le_trans (List.length_filter_le _ _) (Nat.le_of_lt hb))
    rw [htake] at hS
    rw [hS]
    exact ⟨rfl, runnerRevertArgs_revertEvents E _⟩

/-- C17, evaluated: of the bootstrap-free scripts the first two are Applied and the third is
Pending; `Revert(1)` passes over the third and reverts the second only. -/
theorem revert_reverts_last_k_witness :
    runnerRevertArgs ((ledgerExecutor scenarioScripts scenarioNow [] none none).Revert goTime 1
        [("20240101000000", scenarioNow), ("20240102000000", scenarioNow)]).trace =
      [⟨"20240102000000", "create orders", scenarioNow⟩] :=
  (revert_reverts_last_k goTime (ledgerExecutor scenarioScripts scenarioNow [] none none)
    [("20240101000000", scenarioNow), ("20240102000000", scenarioNow)]
    [⟨"20240101000000", "create users", scenarioNow⟩,
     ⟨"20240102000000", "create orders", scenarioNow⟩,
     ⟨"20240103000000", "add index", ⟨0, 0⟩⟩]
    1 (by decide)
    (by
      intro m hm
      simp only [List.mem_cons, List.mem_singleton, List.not_mem_nil, or_false] at hm
      rcases hm with rfl | rfl | rfl <;> exact ⟨_, rfl⟩)
    (by decide)
    (by intro op st; simp [ledgerExecutor, ledgerRunner])
    (by decide) (by decide)).2.2.1.trans (by decide)

/-- C18: for every `step ≥ 0` that an `int` holds, every list, hook and Runner, failing ones
included, `Run(step)` calls `Runner.Run` at most `step` times and `Revert(step)` calls
`Runner.Revert` at most `step` times. -/
theorem step_bounds_runner_calls {σ : Type} (T : TimeEnv) (E : Executor σ) (step : Int)
    (s : σ) (hr : InRange step) (h0 : 0 ≤ step) :
    ((runnerRunArgs (E.Run T step s).trace).length : Int) ≤ step ∧
    ((runnerRevertArgs (E.Revert T step s).trace).length : Int) ≤ step := by
  have hbud : budget step = step.toNat := by
    have := budget_natCast step.toNat (by unfold InRange at hr; omega)
    rwa [Int.toNat_of_nonneg h0] at this
  obtain ⟨ran, _, htr, _, hlen⟩ := run_trace_shape T E step s
  obtain ⟨rev, _, htr', _, hlen'⟩ := revert_trace_shape T E step s
  have h1 := hlen hr
  have h2 := hlen' hr
  rw [hbud] at h1 h2
  constructor
  · rw [htr, runnerRunArgs_runEvents, List.length_map]
    omega
  · rw [htr', runnerRevertArgs_revertEvents, List.length_map]
    omega

/-- C18, evaluated: with a budget of one and a runner that fails on the second script, `Run(1)`
and `Revert(1)` each make at most one runner call. -/
theorem step_bounds_runner_calls_witness :
    ((runnerRunArgs ((ledgerExecutor scenarioScripts scenarioNow ["20240102000000"]
        (some describeHook) none).Run goTime 1 []).trace).length : Int) ≤ 1 ∧
    ((runnerRevertArgs ((ledgerExecutor scenarioScripts scenarioNow ["20240102000000"]
        (some describeHook) none).Revert goTime 1 []).trace).length : Int) ≤ 1 :=
  step_bounds_runner_calls goTime
    (ledgerExecutor scenarioScripts scenarioNow ["20240102000000"] (some describeHook) none)
    1 [] (by unfold InRange; omega) (by decide)

/-- C19: whatever the hooks write, the items for which `Run` makes calls are an initial
segment of the Pending non-sentinel items of the list as the Provider returned it, and those
of `Revert` an initial segment of its Applied non-sentinel items taken last first.  Every
item handed to a hook is an item of that list, in its order, and whether an item counts as
Pending non-sentinel or Applied non-sentinel depends on its Id and its `CreatedAt` only. -/
theorem hook_writes_stay_local {σ : Type} (T : TimeEnv) (E : Executor σ) (step : Int) (s : σ)
    (ms : List Item) (hprov : E.Provider.Migrations s = Except.ok ms) :
    (∃ ran rest : List Item, ms.filter (isRunnable T) = ran ++ rest ∧
      (E.Run T step s).trace = ran.flatMap (runEvents E)) ∧
    (∃ ran rest : List Item, ms.reverse.filter (isRevertible T) = ran ++ rest ∧
      (E.Revert T step s).trace = ran.flatMap (revertEvents E)) ∧
    (onRunArgs (E.Run T step s).trace).Sublist ms ∧
    (onRevertArgs (E.Revert T step s).trace).Sublist ms.reverse ∧
    ∀ m m' : Item, m.Id = m'.Id → m.CreatedAt = m'.CreatedAt →
      isRunnable T m = isRunnable T m' ∧ isRevertible T m = isRevertible T m' := by
  obtain ⟨ran, rest, hseg, htr⟩ := (runOp T E).walk_exec_segment ms ⟨step, s, []⟩
  obtain ⟨rev, rest', hseg', htr'⟩ := (revertOp T E).walk_exec_segment ms.reverse ⟨step, s, []⟩
  rw [← run_eq_walk T E step s ms hprov, runOp_events, List.nil_append] at htr
  rw [← revert_eq_walk T E step s ms hprov, revertOp_events, List.nil_append] at htr'
  rw [runOp_execItems] at hseg
  rw [revertOp_execItems] at hseg'
  have hsub : ran.Sublist ms :=
    (List.sublist_append_left ran rest).trans (hseg ▸ List.filter_sublist ms)
  have hsub' : rev.Sublist ms.reverse :=
    (List.sublist_append_left rev rest').trans (hseg' ▸ List.filter_sublist ms.reverse)
  refine ⟨⟨ran, rest, hseg, htr⟩, ⟨rev, rest', hseg', htr'⟩, ?_, ?_, ?_⟩
  · rw [htr]
    exact (onRunArgs_runEvents_sublist E ran).trans hsub
  · rw [htr']
    exact (onRevertArgs_revertEvents_sublist E rev).trans hsub'
  · intro m m' hid hat
    simp only [isRunnable, isRevertible, hid, hat, and_self]

/-- C19, evaluated: with a hook that writes the sentinel Id into every item it is handed,
`RunAll()` on the three Pending scripts still hands the hook each of the three scripts as
the Provider listed them. -/
theorem hook_writes_stay_local_witness :
    onRunArgs ((ledgerExecutor scenarioScripts scenarioNow [] (some sentinelHook) none).Run
        goTime (-1) []).trace = scenarioScripts ∧
    (onRunArgs ((ledgerExecutor scenarioScripts scenarioNow [] (some sentinelHook) none).Run
        goTime (-1) []).trace).Sublist scenarioScripts :=
  ⟨by decide,
    (hook_writes_stay_local goTime
      (ledgerExecutor scenarioScripts scenarioNow [] (some sentinelHook) none) (-1) []
      scenarioScripts (by decide)).2.2.1⟩

/-- C20: every Applied item of the Provider's list has a parsable Id.  Then for every step an
error that `Revert` returns is one that `Runner.Revert` returned for an Applied item of the
list, never a parse error of a Pending item, and with a runner that always succeeds `Revert`
returns nil.  `Run` on the same list returns the parse error as soon as it enters the
iteration of an item with an unparsable Id with a counter that is not zero. -/
theorem revert_skips_pending_before_parsing {σ : Type} (T : TimeEnv) (E : Executor σ)
    (step : Int) (s : σ) (ms : List Item)
    (hprov : E.Provider.Migrations s = Except.ok ms)
    (happ : ∀ m ∈ ms, m.CreatedAt.IsZero = false → ∃ t, T.Parse m.Id = Except.ok t) :
    (∀ e, (E.Revert T step s).err = some e →
      ∃ m ∈ ms, m.CreatedAt.IsZero = false ∧
        ∃ st, (E.Runner.Revert (hookItem E.OnRevertFn m) st).1 = some e) ∧
    ((∀ op st, (E.Runner.Revert op st).1 = none) → (E.Revert T step s).err = none) ∧
    (∀ (pre : List Item) (m : Item) (post : List Item) (c' : Conf σ) (e : Error),
      ms = pre ++ m :: post → reach (runBody T E) pre ⟨step, s, []⟩ = some c' →
      c'.step ≠ 0 → T.Parse m.Id = Except.error e → (E.Run T step s).err = some e) := by
  have hsrc : ∀ e, (E.Revert T step s).err = some e →
      ∃ m ∈ ms, m.CreatedAt.IsZero = false ∧
        ∃ st, (E.Runner.Revert (hookItem E.OnRevertFn m) st).1 = some e := by
    intro e he
    rw [revert_eq_walk T E step s ms hprov] at he
    rcases (revertOp T E).walk_err_source ms.reverse _ e he with ⟨m, hm, hv⟩ | ⟨m, hm, hv, st, hst⟩
    · exact absurd hv (revertVerdict_ne_parse_error T m (happ m (List.mem_reverse.mp hm)) e)
    · exact ⟨m, List.mem_reverse.mp hm,
        isRevertible_applied T m ((revertVerdict_exec_iff T m).mp hv), st, hst⟩
  refine ⟨hsrc, ?_, ?_⟩
  · intro hrev
    cases herr : (E.Revert T step s).err with
    | none => rfl
    | some e =>
      obtain ⟨m, _, _, st, hst⟩ := hsrc e herr
      rw [hrev] at hst
      exact absurd hst (by simp)
  · intro pre m post c' e hsplit hreach h0 hparse
    rw [runBody_eq_body] at hreach
    rw [hsplit] at hprov
    rw [run_eq_walk T E step s _ hprov, walk_append, hreach]
    have hv : (runOp T E).verdict m = Verdict.stop (some e) := by
      simp [runOp, runVerdict, hparse]
    simp [walk, (runOp T E).body_stop m c' (some e) h0 hv]

/-- C20, evaluated: the first script is Applied and the second, Pending, has a malformed Id;
`RevertAll()` reverts the first and returns nil, `RunAll()` returns the parse error. -/
theorem revert_skips_pending_before_parsing_witness :
    ((ledgerExecutor draftScripts scenarioNow [] none none).Revert goTime (-1)
        [("20240101000000", scenarioNow)]).err = none ∧
    ((ledgerExecutor draftScripts scenarioNow [] none none).Run goTime (-1)
        [("20240101000000", scenarioNow)]).err = some "parsing time: cannot parse year" :=
  have h := revert_skips_pending_before_parsing goTime
    (ledgerExecutor draftScripts scenarioNow [] none none) (-1)
    [("20240101000000", scenarioNow)]
    [⟨"20240101000000", "create users", scenarioNow⟩,
     ⟨"not a timestamp", "draft", ⟨0, 0⟩⟩,
     ⟨"20240103000000", "add index", ⟨0, 0⟩⟩]
    (by decide)
    (by
      intro m hm hz
      simp only [List.mem_cons, List.mem_singleton, List.not_mem_nil, or_false] at hm
      rcases hm with rfl | rfl | rfl
      · exact ⟨_, rfl⟩
      · exact absurd hz (by decide)
      · exact ⟨_, rfl⟩)
  ⟨h.2.1 (by intro op st; simp [ledgerExecutor, ledgerRunner]),
    h.2.2 [⟨"20240101000000", "create users", scenarioNow⟩]
      ⟨"not a timestamp", "draft", ⟨0, 0⟩⟩ [⟨"20240103000000", "add index", ⟨0, 0⟩⟩]
      ⟨-1, [("20240101000000", scenarioNow)], []⟩ "parsing time: cannot parse year"
      rfl (by decide) (by decide) (by decide)⟩

/-- C13, as stated, fails: in every local zone, two calls of `Create` half a second apart
hand the generator items with the same Id; so do, in Central European time, the calls at
2024-10-27 00:30:00 UTC and 01:30:00 UTC, an hour apart, whose wall clocks both read
02:30:00. -/
theorem create_ids_tie_within_second :
    (⟨63839966400, 0⟩ : Time) ≠ ⟨63839966400, 500000000⟩ ∧
    (∀ loc : Location,
      (generatorCreateArgs ((ledgerExecutor [] scenarioNow [] none none).Create (goTimeIn loc)
          ⟨63839966400, 0⟩ "add users" []).trace).map (fun item => item.Id) =
        (generatorCreateArgs ((ledgerExecutor [] scenarioNow [] none none).Create (goTimeIn loc)
          ⟨63839966400, 500000000⟩ "add orders" []).trace).map (fun item => item.Id)) ∧
    generatorCreateArgs ((ledgerExecutor [] scenarioNow [] none none).Create
        (goTimeIn berlinAutumn) ⟨63865585800, 0⟩ "add users" []).trace =
      [⟨"20241027023000", "add users", ⟨63865585800, 0⟩⟩] ∧
    generatorCreateArgs ((ledgerExecutor [] scenarioNow [] none none).Create
        (goTimeIn berlinAutumn) ⟨63865589400, 0⟩ "add orders" []).trace =
      [⟨"20241027023000", "add orders", ⟨63865589400, 0⟩⟩] :=
  ⟨by decide, fun _ => rfl, by decide, by decide⟩

/-- C13, amended: `Create` formats the reading of the clock in the local zone.  For every
local zone and every two instants at which `Create` is called, the Ids of the items handed
to the generator are equal exactly when the two wall clock readings agree to the second.  So in a zone whose offset does not change
between the two instants the Ids are equal exactly when the instants lie in the same second.
And for any `TimeEnv`, two instants that `Parse` recovers from their own Ids have different
Ids unless they are equal. -/
theorem create_ids_tie_exactly_on_wall_clock {σ : Type} (E : Executor σ) (loc : Location)
    (now1 now2 : Time) (name1 name2 : String) (s1 s2 : σ) :
    ((generatorCreateArgs (E.Create (goTimeIn loc) now1 name1 s1).trace).map
          (fun item => item.Id) =
        (generatorCreateArgs (E.Create (goTimeIn loc) now2 name2 s2).trace).map
          (fun item => item.Id) ↔
      now1.sec + loc now1.sec = now2.sec + loc now2.sec) ∧
    (loc now1.sec = loc now2.sec →
      ((generatorCreateArgs (E.Create (goTimeIn loc) now1 name1 s1).trace).map
            (fun item => item.Id) =
          (generatorCreateArgs (E.Create (goTimeIn loc) now2 name2 s2).trace).map
            (fun item => item.Id) ↔
        now1.sec = now2.sec)) ∧
    ∀ T : TimeEnv, T.Parse (T.Format now1) = Except.ok now1 →
      T.Parse (T.Format now2) = Except.ok now2 → T.Format now1 = T.Format now2 →
      now1 = now2 := by
  have hiff := goFormatIn_eq_iff loc now1 now2
  have e1 : (generatorCreateArgs (E.Create (goTimeIn loc) now1 name1 s1).trace).map
      (fun item => item.Id) = [goFormatIn loc now1] := rfl
  have e2 : (generatorCreateArgs (E.Create (goTimeIn loc) now2 name2 s2).trace).map
      (fun item => item.Id) = [goFormatIn loc now2] := rfl
  have hids : (generatorCreateArgs (E.Create (goTimeIn loc) now1 name1 s1).trace).map
        (fun item => item.Id) =
      (generatorCreateArgs (E.Create (goTimeIn loc) now2 name2 s2).trace).map
        (fun item => item.Id) ↔
      now1.sec + loc now1.sec = now2.sec + loc now2.sec := by
    rw [e1, e2, ← hiff]
    simp
  refine ⟨hids, ?_, ?_⟩
  · intro hloc
    rw [hids, hloc]
    omega
  · intro T hp1 hp2 hf
    rw [hf, hp2] at hp1
    exact (Except.ok.inj hp1).symm

/-- C13 amended, evaluated: in Central European time the calls of `Create` at 2024-10-27
00:30:00 UTC and one second later get different Ids. -/
theorem create_ids_tie_exactly_on_wall_clock_witness :
    (generatorCreateArgs ((ledgerExecutor [] scenarioNow [] none none).Create
        (goTimeIn berlinAutumn) ⟨63865585800, 0⟩ "add users" []).trace).map
        (fun item => item.Id) ≠
      (generatorCreateArgs ((ledgerExecutor [] scenarioNow [] none none).Create
        (goTimeIn berlinAutumn) ⟨63865585801, 0⟩ "add orders" []).trace).map
        (fun item => item.Id) :=
  fun h => absurd
    (((create_ids_tie_exactly_on_wall_clock (ledgerExecutor [] scenarioNow [] none none)
      berlinAutumn ⟨63865585800, 0⟩ ⟨63865585801, 0⟩ "add users" "add orders" []
      []).1).mp h) (by decide)

end Migration
